import Mathlib

/-!
# Clib static library creator: incremental compile-and-archive orchestration

A shallow embedding of `src/main.cpp` (the single translation unit of the
repository) together with theorems about its change detection, its archive
update, its fail-fast behaviour and its persisted cache.

Text is `List Char`. The values of type `uintmax_t` are natural numbers below
`2 ^ 64`; the bound is checked where the program can leave the range, which is
only when a number is read from the cache file.
-/

namespace Clib

/-- Text of the program: `std::string` as a list of characters. -/
abbrev Str := List Char

/-- The exclusive upper bound of `uintmax_t`. -/
def UINTMAX_BOUND : Nat := 2 ^ 64

/-! ## `std::filesystem::path` operations used by `main` (generic format) -/

/-- The result of `path::filename()`: what follows the last directory separator. -/
def filename (p : Str) : Str :=
  (p.reverse.takeWhile (fun c => c != '/')).reverse

/-- The result of `path::extension()`: the part of the file name from its last
period on, empty when the file name has no period, is `.` or `..`, or has its
only period in front. -/
def extension (p : Str) : Str :=
  let f := filename p
  let suf := (f.reverse.takeWhile (fun c => c != '.')).reverse
  if suf.length = f.length then []
  else if f.length - suf.length - 1 = 0 then []
  else if f = ['.', '.'] then []
  else f.drop (f.length - suf.length - 1)

/-- The result of `path::stem()`: the file name without its extension. -/
def stem (p : Str) : Str :=
  let f := filename p
  f.take (f.length - (extension p).length)

/-- The result of `operator/` on paths: the right operand replaces the left one
when it is absolute, and is appended otherwise, after a separator unless the
left operand is empty or ends in one. -/
def pathJoin (p q : Str) : Str :=
  if q.head? = some '/' then q
  else if p = [] ∨ p.getLast? = some '/' then p ++ q
  else p ++ '/' :: q

/-! ## The cache table -/

/-- Mirror of `struct FileInfo`. -/
structure FileInfo where
  cppSize : Nat
  objTime : Nat
deriving DecidableEq, Repr, Inhabited

/-- The type `std::unordered_map<std::string, FileInfo>` as an association list
with one entry per key. -/
abbrev InfoMap := List (Str × FileInfo)

/-- The result of `m.find(k)`: the record stored under `k`, if any. -/
def find (m : InfoMap) (k : Str) : Option FileInfo :=
  match m with
  | [] => none
  | (k', v) :: rest => if k' = k then some v else find rest k

/-- The effect of `m[k] = v`: the record under `k` is replaced, or added when
there is none. -/
def assign (m : InfoMap) (k : Str) (v : FileInfo) : InfoMap :=
  match m with
  | [] => [(k, v)]
  | (k', v') :: rest => if k' = k then (k, v) :: rest else (k', v') :: assign rest k v

/-! ## Formatted stream input and output (`operator>>`, `operator<<`) -/

/-- White space of the classic locale, skipped and used as delimiter by `>>`. -/
def isspace (c : Char) : Bool :=
  c == ' ' || c == '\t' || c == '\n' || c == '\x0b' || c == '\x0c' || c == '\r'

/-- Decimal digit test. -/
def isdigit (c : Char) : Bool := '0'.toNat ≤ c.toNat && c.toNat ≤ '9'.toNat

/-- Extraction `in >> str` of a `std::string`: leading white space is skipped,
then characters are taken up to the next white space or the end of the input;
the extraction fails when nothing was taken. Returns the word and the rest. -/
def readWord (s : Str) : Option (Str × Str) :=
  let s1 := s.dropWhile isspace
  let w := s1.takeWhile (fun c => !isspace c)
  if w = [] then none else some (w, s1.dropWhile (fun c => !isspace c))

/-- Value of a run of decimal digits. -/
def digitsValue (ds : Str) : Nat :=
  ds.foldl (fun acc c => 10 * acc + (c.toNat - '0'.toNat)) 0

/-- Extraction `in >> n` of a `uintmax_t`: leading white space is skipped, an
optional sign is taken, then decimal digits. The extraction fails when there is
no digit or when the digits exceed the range; a minus sign negates modulo
`2 ^ 64`. Returns the value and the rest of the input. -/
def readUInt (s : Str) : Option (Nat × Str) :=
  let s1 := s.dropWhile isspace
  let neg := s1.head? = some '-'
  let s2 := if s1.head? = some '-' ∨ s1.head? = some '+' then s1.tail else s1
  let ds := s2.takeWhile isdigit
  if ds = [] then none
  else if UINTMAX_BOUND ≤ digitsValue ds then none
  else some (if neg then (UINTMAX_BOUND - digitsValue ds) % UINTMAX_BOUND else digitsValue ds,
             s2.dropWhile isdigit)

/-- One evaluation of the loop condition `inFile >> file >> cppSize >> objTime`:
the three extractions in a row, failing as soon as one of them fails. -/
def readRecord (s : Str) : Option ((Str × FileInfo) × Str) :=
  match readWord s with
  | none => none
  | some (file, s1) =>
    match readUInt s1 with
    | none => none
    | some (cppSize, s2) =>
      match readUInt s2 with
      | none => none
      | some (objTime, s3) => some ((file, ⟨cppSize, objTime⟩), s3)

/-- The load loop of `main` (lines 44 to 46) with an explicit bound on the number
of iterations: while a record can be read, it is stored under its path. -/
def loadLoop : Nat → Str → InfoMap → InfoMap
  | 0, _, m => m
  | fuel + 1, s, m =>
    match readRecord s with
    | none => m
    | some ((file, info), rest) => loadLoop fuel rest (assign m file info)

/-- The table loaded from the text of the cache file. Every record read takes
at least one character, so the length of the text bounds the iterations. -/
def loadInfo (s : Str) : InfoMap := loadLoop s.length s []

/-- The table `lastInfo` after lines 39 to 48: empty when the file cannot be
opened, loaded from its text otherwise. -/
def loadCache (file : Option Str) : InfoMap :=
  match file with
  | none => []
  | some s => loadInfo s

/-- Insertion `out << n` of a `uintmax_t`: its decimal digits. -/
def showUInt (n : Nat) : Str := Nat.toDigits 10 n

/-- One line written by the save loop (line 148). -/
def saveLine (r : Str × FileInfo) : Str :=
  r.1 ++ ' ' :: showUInt r.2.cppSize ++ ' ' :: showUInt r.2.objTime ++ ['\n']

/-- The text written by the save loop (lines 147 to 149) when the table is
traversed in the order of `rs`. -/
def saveText (rs : List (Str × FileInfo)) : Str :=
  match rs with
  | [] => []
  | r :: rest => saveLine r ++ saveText rest

/-! ## The file system and the external tools -/

/-- The four command-line arguments of `main` (lines 33 to 36). -/
structure Args where
  sourceDir : Str
  includeDir : Str
  outputDir : Str
  staticLib : Str

/-- The files the program reads and writes. A directory is the list of its
entries, the source directory in the order `directory_iterator` yields them,
the output directory in any order (its traversal order is `Tools.scan`); an
entry is a file
name with the byte size (in the source directory) or the modification marker
`last_write_time(..).time_since_epoch().count()` as a `uintmax_t` (in the
output directory); the path of an entry is the directory joined with its name.
The archive `outputDir / staticLib` is kept apart from the other entries of
the output directory: `lib` holds the object paths it has received, `none`
when the archive file does not exist. `cache` is the text of `.last_sizes.txt`,
`none` when the file does not exist. -/
structure Files where
  src : List (Str × Nat)
  out : List (Str × Nat)
  lib : Option (List Str)
  cache : Option Str
deriving DecidableEq, Repr

/-- What the program cannot decide during one run. `cc src obj inc` is the
command `g++ -c src -o obj -Iinc`: `none` for a non-zero exit status, `some t`
for exit status 0 with the object file written and carrying marker `t`.
`ar lib obj` is `ar r lib obj` and `arAll lib pattern` is the creation command
`ar r lib outputDir/*.o`: `true` for exit status 0, after which the archive
exists and holds what it was given. `order` is the order in which an
`unordered_map` is traversed. `scan` is the order in which
`directory_iterator` yields the entries of the output directory, which the
standard leaves unspecified: some arrangement of the entries. -/
structure Tools where
  cc : Str → Str → Str → Option Nat
  ar : Str → Str → Bool
  arAll : Str → Str → Bool
  order : InfoMap → InfoMap
  scan : List (Str × Nat) → List (Str × Nat)
  scan_perm : ∀ d, (scan d).Perm d

/-- One call of `std::system`, with whether its exit status was 0. -/
inductive Call where
  | compile (src obj inc : Str) (ok : Bool)
  | archive (lib obj : Str) (ok : Bool)
  | archiveAll (lib pattern : Str) (ok : Bool)
deriving DecidableEq, Repr

/-- Whether the call returned exit status 0. -/
def Call.ok : Call → Bool
  | .compile _ _ _ ok => ok
  | .archive _ _ ok => ok
  | .archiveAll _ _ ok => ok

/-- The summary and error messages of `main`. -/
inductive Msg where
  | compileFailed (name : Str)
  | noChanges
  | addFailed (name : Str)
  | creating
  | createFailed
  | upToDate
  | updated
deriving DecidableEq, Repr

/-- The marker of the entry `name` of a directory, if there is such an entry. -/
def marker (dir : List (Str × Nat)) (name : Str) : Option Nat :=
  match dir with
  | [] => none
  | (n, t) :: rest => if n = name then some t else marker rest name

/-- The directory after `name` was written with marker `t`. The place of an
entry in the list carries no meaning: the archive loop traverses the directory
in the order `Tools.scan` gives. -/
def writeFile (dir : List (Str × Nat)) (name : Str) (t : Nat) : List (Str × Nat) :=
  match dir with
  | [] => [(name, t)]
  | (n, t') :: rest => if n = name then (name, t) :: rest else (n, t') :: writeFile rest name t

/-- The directory after `fs::remove` of the entry `name`. -/
def removeFile (dir : List (Str × Nat)) (name : Str) : List (Str × Nat) :=
  dir.filter (fun e => e.1 != name)

/-- The members of the archive after `ar r` received `obj`. -/
def addMember (lib : Option (List Str)) (obj : Str) : List Str :=
  match lib with
  | none => [obj]
  | some ms => if obj ∈ ms then ms else ms ++ [obj]

/-! ## The program -/

/-- The literal `".cpp"`. -/
def dotCpp : Str := ['.', 'c', 'p', 'p']

/-- The literal `".o"`. -/
def dotO : Str := ['.', 'o']

/-- The literal `"main.cpp"`. -/
def mainCpp : Str := ['m', 'a', 'i', 'n', '.', 'c', 'p', 'p']

/-- The literal `"/*.o"`. -/
def globO : Str := ['/', '*', '.', 'o']

/-- The filter of line 58 on the path of a source directory entry. -/
def eligible (p : Str) : Bool :=
  extension p == dotCpp && filename p != mainCpp

/-- The file name `stem + ".o"` of the object that belongs to the source path
`filepath` (lines 61 and 104). -/
def objFileName (filepath : Str) : Str := stem filepath ++ dotO

/-- The path `outputDir / (stem + ".o")` of the object that belongs to the
source path `filepath` (lines 61 and 104). -/
def objFile (a : Args) (filepath : Str) : Str := pathJoin a.outputDir (objFileName filepath)

/-- The path `libPath` of the archive (line 95). -/
def libPath (a : Args) : Str := pathJoin a.outputDir a.staticLib

/-- The effect of `m[k].cppSize = n`, `operator[]` inserting a zero record
first when `k` is absent. -/
def assignCppSize (m : InfoMap) (k : Str) (n : Nat) : InfoMap :=
  match find m k with
  | none => assign m k ⟨n, 0⟩
  | some r => assign m k { r with cppSize := n }

/-- The effect of `m[k].objTime = t`. -/
def assignObjTime (m : InfoMap) (k : Str) (t : Nat) : InfoMap :=
  match find m k with
  | none => assign m k ⟨0, t⟩
  | some r => assign m k { r with objTime := t }

/-- The variables of `main` that change while it runs, with the output
directory, the archive, the calls of `std::system` made so far and the
messages printed so far. -/
structure State where
  newInfo : InfoMap
  out : List (Str × Nat)
  lib : Option (List Str)
  calls : List Call
  msgs : List Msg
  anyCompiled : Bool
  libUpdated : Bool
deriving DecidableEq, Repr

/-- A range-based `for` whose body may `return`: `step` gives the next state
and whether the loop goes on. -/
def forEach {σ α : Type} (step : σ → α → σ × Bool) : List α → σ → σ × Bool
  | [], s => (s, true)
  | x :: xs, s =>
    match step s x with
    | (s1, true) => forEach step xs s1
    | (s1, false) => (s1, false)

/-- The test of line 69. -/
def needsCompile (lastInfo : InfoMap) (filepath : Str) (filesize : Nat)
    (objExists : Bool) : Bool :=
  match find lastInfo filepath with
  | none => true
  | some r => r.cppSize != filesize || !objExists

/-- The body of the compile loop (lines 58 to 86) for one entry of the source
directory; the flag is `false` when the body returns 1. The object file exists
when the output directory has an entry of its name. -/
def compileEntry (a : Args) (t : Tools) (lastInfo : InfoMap) (st : State)
    (e : Str × Nat) : State × Bool :=
  let filepath := pathJoin a.sourceDir e.1
  if eligible filepath then
    let newInfo1 := assignObjTime (assignCppSize st.newInfo filepath e.2) filepath
      ((marker st.out (objFileName filepath)).getD 0)
    if needsCompile lastInfo filepath e.2 (marker st.out (objFileName filepath)).isSome then
      match t.cc filepath (objFile a filepath) a.includeDir with
      | none =>
        ({ st with
            newInfo := newInfo1
            calls := st.calls ++ [Call.compile filepath (objFile a filepath) a.includeDir false]
            msgs := st.msgs ++ [Msg.compileFailed (filename filepath)] }, false)
      | some time =>
        ({ st with
            newInfo := assignObjTime newInfo1 filepath time
            out := writeFile st.out (objFileName filepath) time
            calls := st.calls ++ [Call.compile filepath (objFile a filepath) a.includeDir true]
            anyCompiled := true }, true)
    else ({ st with newInfo := newInfo1 }, true)
  else (st, true)

/-- The search of lines 102 to 111: whether some record of the new table
belongs to the object `entryPath` and is new or carries another marker than
the loaded one. Both paths compared are the output directory joined with a file
name, so they are equal as paths when they are equal as text. -/
def addToLib (a : Args) (lastInfo : InfoMap) (newInfo : InfoMap) (entryPath : Str) : Bool :=
  newInfo.any (fun ci =>
    objFile a ci.1 == entryPath &&
      (match find lastInfo ci.1 with
       | none => true
       | some r => r.objTime != ci.2.objTime))

/-- The body of the archive loop (lines 98 to 126) for one entry of the output
directory; the flag is `false` when the body returns 1. -/
def archiveEntry (a : Args) (t : Tools) (lastInfo newInfo : InfoMap) (st : State)
    (e : Str × Nat) : State × Bool :=
  let entryPath := pathJoin a.outputDir e.1
  if extension entryPath = dotO then
    if addToLib a lastInfo (t.order newInfo) entryPath then
      if t.ar (libPath a) entryPath then
        ({ st with
            out := removeFile st.out e.1
            lib := some (addMember st.lib entryPath)
            calls := st.calls ++ [Call.archive (libPath a) entryPath true]
            libUpdated := true }, true)
      else
        ({ st with
            calls := st.calls ++ [Call.archive (libPath a) entryPath false]
            msgs := st.msgs ++ [Msg.addFailed (filename entryPath)] }, false)
    else (st, true)
  else (st, true)

/-- The state at line 53, before the compile loop. -/
def initState (w : Files) : State :=
  { newInfo := [], out := w.out, lib := w.lib, calls := [], msgs := [],
    anyCompiled := false, libUpdated := false }

/-- The compile phase (lines 53 to 91) on the files `w`. -/
def compilePhase (a : Args) (t : Tools) (w : Files) : State × Bool :=
  match forEach (compileEntry a t (loadCache w.cache)) w.src (initState w) with
  | (st, false) => (st, false)
  | (st, true) =>
    (if st.anyCompiled then st else { st with msgs := st.msgs ++ [Msg.noChanges] }, true)

/-- The archive loop (lines 97 to 127) from the state `st`, over the entries
the output directory holds when the loop starts, in the order `t.scan` yields
them. -/
def archiveLoop (a : Args) (t : Tools) (lastInfo : InfoMap) (st : State) : State × Bool :=
  forEach (archiveEntry a t lastInfo st.newInfo) (t.scan st.out) st

/-- The creation of a missing archive (lines 129 to 137). -/
def createLib (a : Args) (t : Tools) (st : State) : State × Bool :=
  match st.lib with
  | some _ => (st, true)
  | none =>
    if t.arAll (libPath a) (a.outputDir ++ globO) then
      ({ st with
          lib := some ((st.out.filter
            (fun e => extension (pathJoin a.outputDir e.1) == dotO)).map
            (fun e => pathJoin a.outputDir e.1))
          calls := st.calls ++ [Call.archiveAll (libPath a) (a.outputDir ++ globO) true]
          msgs := st.msgs ++ [Msg.creating]
          libUpdated := true }, true)
    else
      ({ st with
          calls := st.calls ++ [Call.archiveAll (libPath a) (a.outputDir ++ globO) false]
          msgs := st.msgs ++ [Msg.creating, Msg.createFailed] }, false)

/-- What a run leaves behind: the exit code of `main`, the calls of
`std::system` in order, the messages in order, and the files. -/
structure Result where
  exitCode : Nat
  calls : List Call
  msgs : List Msg
  files : Files

/-- The result of a run that returns 1 in state `st`: the cache file was not
opened for writing. -/
def aborted (w : Files) (st : State) : Result :=
  { exitCode := 1, calls := st.calls, msgs := st.msgs,
    files := { w with out := st.out, lib := st.lib } }

/-- The function `main` called with four arguments, on the files `w` and with
the external behaviour `t`. -/
def run (a : Args) (t : Tools) (w : Files) : Result :=
  match compilePhase a t w with
  | (st1, false) => aborted w st1
  | (st1, true) =>
    match archiveLoop a t (loadCache w.cache) st1 with
    | (st2, false) => aborted w st2
    | (st2, true) =>
      match createLib a t st2 with
      | (st3, false) => aborted w st3
      | (st3, true) =>
        { exitCode := 0
          calls := st3.calls
          msgs := st3.msgs ++ [if st3.libUpdated then Msg.updated else Msg.upToDate]
          files := { w with
            out := st3.out
            lib := st3.lib
            cache := some (saveText (t.order st3.newInfo)) } }

/-! ## Sample data -/

/-- Arguments `src inc out libx.a`. -/
def sampleArgs : Args :=
  { sourceDir := "src".toList, includeDir := "inc".toList,
    outputDir := "out".toList, staticLib := "libx.a".toList }

/-- Tools that always succeed, every object written carrying marker `m`. -/
def toolsOk (m : Nat) : Tools :=
  { cc := fun _ _ _ => some m, ar := fun _ _ => true, arAll := fun _ _ => true,
    order := fun x => x, scan := fun d => d, scan_perm := fun d => List.Perm.refl d }

/-- A source directory with `a.cpp` of 100 bytes and `b.cpp` of 50 bytes, an
empty output directory, no archive and no cache file. -/
def freshFiles : Files :=
  { src := [("a.cpp".toList, 100), ("b.cpp".toList, 50)], out := [], lib := none,
    cache := none }

/-! ## Notions used in the statements -/

/-- The table after the records `rs` were stored one after the other. -/
def assignAll (m : InfoMap) (rs : List (Str × FileInfo)) : InfoMap :=
  rs.foldl (fun acc r => assign acc r.1 r.2) m

/-- A path the extraction `>> file` reads back whole: not empty and free of
white space. -/
def plainWord (w : Str) : Prop := w ≠ [] ∧ ∀ c ∈ w, isspace c = false

instance (w : Str) : Decidable (plainWord w) := by
  unfold plainWord; infer_instance

/-- A record the load loop reads back from its saved line: a plain path and
two values of `uintmax_t`. -/
def plainRecord (r : Str × FileInfo) : Prop :=
  plainWord r.1 ∧ r.2.cppSize < UINTMAX_BOUND ∧ r.2.objTime < UINTMAX_BOUND

instance (r : Str × FileInfo) : Decidable (plainRecord r) := by
  unfold plainRecord; infer_instance

/-- The path `src/a.cpp`. -/
def aCpp : Str := "src/a.cpp".toList

/-- The path `src/b.cpp`. -/
def bCpp : Str := "src/b.cpp".toList

/-- The path `entry.path()` of an entry of the source directory. -/
def srcPath (a : Args) (e : Str × Nat) : Str := pathJoin a.sourceDir e.1

/-- The path `entry.path()` of an entry of the output directory. -/
def outPath (a : Args) (e : Str × Nat) : Str := pathJoin a.outputDir e.1

/-- A directory as `directory_iterator` presents it: the file names are
distinct and hold no separator. -/
def Listing (dir : List (Str × Nat)) : Prop :=
  (dir.map Prod.fst).Nodup ∧ ∀ e ∈ dir, '/' ∉ e.1

instance (dir : List (Str × Nat)) : Decidable (Listing dir) := by
  unfold Listing; infer_instance

/-- Whether the compile loop calls the compiler for the entry `e` when the
output directory is `out`: the entry passes the filter of line 58 and the test
of line 69. -/
def toCompile (a : Args) (lastInfo : InfoMap) (out : List (Str × Nat)) (e : Str × Nat) : Bool :=
  eligible (srcPath a e) &&
    needsCompile lastInfo (srcPath a e) e.2 (marker out (objFileName (srcPath a e))).isSome

/-- The marker of the object the compiler writes for the entry `e` (0 when the
compiler fails). -/
def ccTime (a : Args) (t : Tools) (e : Str × Nat) : Nat :=
  (t.cc (srcPath a e) (objFile a (srcPath a e)) a.includeDir).getD 0

/-- The call of the compiler for the entry `e`. -/
def compileCall (a : Args) (e : Str × Nat) (ok : Bool) : Call :=
  Call.compile (srcPath a e) (objFile a (srcPath a e)) a.includeDir ok

/-- The call of the archiver for the entry `e` of the output directory. -/
def archiveCall (a : Args) (e : Str × Nat) (ok : Bool) : Call :=
  Call.archive (libPath a) (outPath a e) ok

/-- Whether a call is a call of the compiler. -/
def Call.isCompile : Call → Bool
  | .compile _ _ _ _ => true
  | _ => false

/-- Whether a call is a call of the archiver for one object. -/
def Call.isArchive : Call → Bool
  | .archive _ _ _ => true
  | _ => false

/-- The directory after the files `ws` were written one after the other. -/
def writeAll (dir : List (Str × Nat)) (ws : List (Str × Nat)) : List (Str × Nat) :=
  ws.foldl (fun d x => writeFile d x.1 x.2) dir

/-- Every call returned exit status 0. -/
def AllOk (cs : List Call) : Prop := ∀ c ∈ cs, c.ok = true

/-- The last call returned a non-zero exit status and every call before it
returned 0. -/
def FailedLast (cs : List Call) : Prop :=
  ∃ pre c, cs = pre ++ [c] ∧ c.ok = false ∧ ∀ x ∈ pre, x.ok = true

/-- The record the compile loop leaves in the new table for the entry `e` when
the output directory is `out`: the byte size, and the marker of the fresh
object when the entry is compiled, of the existing object otherwise. -/
def newRecord (a : Args) (t : Tools) (lastInfo : InfoMap) (out : List (Str × Nat))
    (e : Str × Nat) : Str × FileInfo :=
  (srcPath a e,
    ⟨e.2, if needsCompile lastInfo (srcPath a e) e.2
        (marker out (objFileName (srcPath a e))).isSome
      then ccTime a t e else (marker out (objFileName (srcPath a e))).getD 0⟩)

/-- Whether the archive loop calls the archiver for the entry `e` of the output
directory: the entry passes the filter of line 98 and the search of lines 102
to 111 succeeds. -/
def toArchive (a : Args) (t : Tools) (lastInfo newInfo : InfoMap) (e : Str × Nat) : Bool :=
  extension (outPath a e) == dotO && addToLib a lastInfo (t.order newInfo) (outPath a e)

/-- The archive after it received the objects `objs` one after the other. -/
def libAfter (lib : Option (List Str)) (objs : List Str) : Option (List Str) :=
  objs.foldl (fun l o => some (addMember l o)) lib

/-- The eligible entries of the source directory. -/
def sources (a : Args) (w : Files) : List (Str × Nat) :=
  w.src.filter (fun e => eligible (srcPath a e))

/-- The entries of the source directory the compile loop compiles. -/
def compiled (a : Args) (w : Files) : List (Str × Nat) :=
  w.src.filter (toCompile a (loadCache w.cache) w.out)

/-- The new table at the end of a compile loop in which no compilation fails,
when the source paths are distinct. -/
def newTable (a : Args) (t : Tools) (w : Files) : InfoMap :=
  (sources a w).map (newRecord a t (loadCache w.cache) w.out)

/-- The output directory at the end of a compile loop in which no compilation
fails. -/
def outAfterCompile (a : Args) (t : Tools) (w : Files) : List (Str × Nat) :=
  writeAll w.out ((compiled a w).map (fun e => (objFileName (srcPath a e), ccTime a t e)))

/-- The entries of the output directory the archive loop passes to the
archiver after a compile loop in which no compilation fails. -/
def archived (a : Args) (t : Tools) (w : Files) : List (Str × Nat) :=
  (t.scan (outAfterCompile a t w)).filter
    (toArchive a t (loadCache w.cache) (newTable a t w))

/-- Tools whose compiler always fails. -/
def toolsCcFail : Tools :=
  { cc := fun _ _ _ => none, ar := fun _ _ => true, arAll := fun _ _ => true,
    order := fun x => x, scan := fun d => d, scan_perm := fun d => List.Perm.refl d }

/-- Tools that always succeed, every object written carrying marker 7, the
output directory traversed in the opposite order of the list. -/
def toolsOkRev : Tools :=
  { cc := fun _ _ _ => some 7, ar := fun _ _ => true, arAll := fun _ _ => true,
    order := fun x => x, scan := fun d => d.reverse,
    scan_perm := fun d => List.reverse_perm d }

/-- Tools whose archiver always fails, every object written carrying marker 7,
the output directory traversed in the order of the list. -/
def toolsArFail : Tools :=
  { cc := fun _ _ _ => some 7, ar := fun _ _ => false, arAll := fun _ _ => false,
    order := fun x => x, scan := fun d => d, scan_perm := fun d => List.Perm.refl d }

/-- Tools whose archiver always fails, every object written carrying marker 7,
the output directory traversed in the opposite order. -/
def toolsArFailRev : Tools :=
  { cc := fun _ _ _ => some 7, ar := fun _ _ => false, arAll := fun _ _ => false,
    order := fun x => x, scan := fun d => d.reverse,
    scan_perm := fun d => List.reverse_perm d }

/-- The files a first run on `freshFiles` leaves when every object carries
marker 7: both objects archived and removed, both sources recorded. -/
def cachedFiles : Files :=
  { src := [("a.cpp".toList, 100), ("b.cpp".toList, 50)], out := [],
    lib := some ["out/a.o".toList, "out/b.o".toList],
    cache := some "src/a.cpp 100 7\nsrc/b.cpp 50 7\n".toList }

/-- Files whose cache holds a record for `src/gone.cpp`, a source that is no
longer in the source directory. -/
def staleFiles : Files :=
  { src := [("a.cpp".toList, 100)], out := [],
    lib := some ["out/gone.o".toList],
    cache := some "src/gone.cpp 5 9\n".toList }

/-! # Lemmas -/

/-! ## Decimal output read back -/

theorem takeWhile_front {α : Type} (p : α → Bool) (l : List α) (c : α) (r : List α)
    (hl : ∀ x ∈ l, p x = true) (hc : p c = false) :
    (l ++ c :: r).takeWhile p = l := by
  induction l with
  | nil => simp [List.takeWhile, hc]
  | cons x xs ih =>
    have hx : p x = true := hl x (List.mem_cons_self x xs)
    have hxs : ∀ y ∈ xs, p y = true := fun y hy => hl y (List.mem_cons_of_mem x hy)
    simp [List.takeWhile, hx, ih hxs]

theorem dropWhile_front {α : Type} (p : α → Bool) (l : List α) (c : α) (r : List α)
    (hl : ∀ x ∈ l, p x = true) (hc : p c = false) :
    (l ++ c :: r).dropWhile p = c :: r := by
  induction l with
  | nil => simp [List.dropWhile, hc]
  | cons x xs ih =>
    have hx : p x = true := hl x (List.mem_cons_self x xs)
    have hxs : ∀ y ∈ xs, p y = true := fun y hy => hl y (List.mem_cons_of_mem x hy)
    simp [List.dropWhile, hx, ih hxs]

theorem digitChar_spec : ∀ d, d < 10 →
    isdigit (Nat.digitChar d) = true ∧ (Nat.digitChar d).toNat - '0'.toNat = d := by
  decide

theorem isspace_not_digit (c : Char) (h : isdigit c = true) : isspace c = false := by
  cases hs : isspace c with
  | false => rfl
  | true =>
    simp only [isspace, Bool.or_eq_true, beq_iff_eq] at hs
    rcases hs with ((((rfl | rfl) | rfl) | rfl) | rfl) | rfl <;> revert h <;> decide

theorem toDigitsCore_append (fuel : Nat) : ∀ (n : Nat) (ds : List Char),
    Nat.toDigitsCore 10 fuel n ds = Nat.toDigitsCore 10 fuel n [] ++ ds := by
  induction fuel with
  | zero => intro n ds; simp [Nat.toDigitsCore]
  | succ f ih =>
    intro n ds
    simp only [Nat.toDigitsCore]
    split
    · simp
    · rw [ih (n / 10) (Nat.digitChar (n % 10) :: ds), ih (n / 10) [Nat.digitChar (n % 10)]]
      simp

theorem toDigitsCore_spec (fuel : Nat) : ∀ n, n < fuel →
    digitsValue (Nat.toDigitsCore 10 fuel n []) = n ∧
    (∀ c ∈ Nat.toDigitsCore 10 fuel n [], isdigit c = true) ∧
    Nat.toDigitsCore 10 fuel n [] ≠ [] := by
  induction fuel with
  | zero => intro n h; omega
  | succ f ih =>
    intro n hn
    simp only [Nat.toDigitsCore]
    have hd := digitChar_spec (n % 10) (Nat.mod_lt n (by decide))
    split
    · rename_i h0
      have hlt : n % 10 = n := by omega
      refine ⟨?_, ?_, by simp⟩
      · simp only [digitsValue, List.foldl]; rw [hd.2]; omega
      · intro c hc; simp at hc; rw [hc]; exact hd.1
    · rename_i h0
      have hf : n / 10 < f := by omega
      obtain ⟨h1, h2, h3⟩ := ih (n / 10) hf
      rw [toDigitsCore_append]
      refine ⟨?_, ?_, by simp [h3]⟩
      · simp only [digitsValue, List.foldl_append, List.foldl] at h1 ⊢
        rw [h1, hd.2]; omega
      · intro c hc
        rcases List.mem_append.1 hc with hc | hc
        · exact h2 c hc
        · simp at hc; rw [hc]; exact hd.1

theorem showUInt_spec (n : Nat) :
    digitsValue (showUInt n) = n ∧ (∀ c ∈ showUInt n, isdigit c = true) ∧ showUInt n ≠ [] :=
  toDigitsCore_spec (n + 1) n (Nat.lt_succ_self n)

/-! ## Reading back what the save loop writes -/

theorem readUInt_show (n : Nat) (hn : n < UINTMAX_BOUND) (c : Char) (rest : Str)
    (hc : isdigit c = false) :
    readUInt (' ' :: (showUInt n ++ c :: rest)) = some (n, c :: rest) := by
  obtain ⟨hv, hd, hne⟩ := showUInt_spec n
  obtain ⟨d, ds, hds⟩ := List.exists_cons_of_ne_nil hne
  have hdd : isdigit d = true := hd d (by rw [hds]; exact List.mem_cons_self d ds)
  have hsp : isspace d = false := isspace_not_digit d hdd
  have hminus : d ≠ '-' := by intro h; rw [h] at hdd; revert hdd; decide
  have hplus : d ≠ '+' := by intro h; rw [h] at hdd; revert hdd; decide
  have h1 : (' ' :: (showUInt n ++ c :: rest)).dropWhile isspace = showUInt n ++ c :: rest := by
    have hs : isspace ' ' = true := by decide
    rw [List.dropWhile_cons_of_pos hs, hds]
    simp [List.dropWhile, hsp]
  have hhead : (showUInt n ++ c :: rest).head? = some d := by rw [hds]; rfl
  unfold readUInt
  simp only [h1, hhead, Option.some.injEq, hminus, hplus, or_self, if_false]
  rw [takeWhile_front isdigit (showUInt n) c rest hd hc,
    dropWhile_front isdigit (showUInt n) c rest hd hc, hv]
  simp [hne, Nat.not_le.2 hn]

theorem readWord_plain (w : Str) (hw : plainWord w) (rest : Str) :
    readWord (w ++ ' ' :: rest) = some (w, ' ' :: rest) := by
  obtain ⟨hne, hns⟩ := hw
  obtain ⟨d, ds, hds⟩ := List.exists_cons_of_ne_nil hne
  have hsp : isspace d = false := hns d (by rw [hds]; exact List.mem_cons_self d ds)
  have h1 : (w ++ ' ' :: rest).dropWhile isspace = w ++ ' ' :: rest := by
    rw [hds]; simp [List.dropWhile, hsp]
  have hall : ∀ x ∈ w, (fun c => !isspace c) x = true := by
    intro x hx; simp [hns x hx]
  have hsp2 : (fun c => !isspace c) ' ' = false := by decide
  unfold readWord
  simp only [h1]
  rw [takeWhile_front _ w ' ' rest hall hsp2, dropWhile_front _ w ' ' rest hall hsp2]
  simp [hne]

theorem readRecord_saveLine (r : Str × FileInfo) (hr : plainRecord r) (tail : Str) :
    readRecord (saveLine r ++ tail) = some (r, '\n' :: tail) := by
  obtain ⟨hw, hs, ht⟩ := hr
  have e : saveLine r ++ tail
      = r.1 ++ ' ' :: (showUInt r.2.cppSize ++ ' ' :: (showUInt r.2.objTime ++ '\n' :: tail)) := by
    simp [saveLine]
  unfold readRecord
  rw [e, readWord_plain r.1 hw]
  simp only []
  rw [readUInt_show _ hs ' ' _ (by decide)]
  simp only []
  rw [readUInt_show _ ht '\n' _ (by decide)]

theorem readWord_newline (s : Str) : readWord ('\n' :: s) = readWord s := by
  have hs : isspace '\n' = true := by decide
  unfold readWord
  rw [List.dropWhile_cons_of_pos hs]

theorem readRecord_newline (s : Str) : readRecord ('\n' :: s) = readRecord s := by
  unfold readRecord
  rw [readWord_newline]

theorem loadLoop_newline (fuel : Nat) (s : Str) (m : InfoMap) :
    loadLoop fuel ('\n' :: s) m = loadLoop fuel s m := by
  cases fuel with
  | zero => rfl
  | succ f => simp only [loadLoop, readRecord_newline]

theorem loadLoop_stop (fuel : Nat) (s : Str) (m : InfoMap) (h : readRecord s = none) :
    loadLoop fuel s m = m := by
  cases fuel with
  | zero => rfl
  | succ f => simp only [loadLoop, h]

theorem loadLoop_saveText (rs : List (Str × FileInfo)) :
    ∀ (fuel : Nat) (tail : Str) (m : InfoMap), rs.length ≤ fuel →
      (∀ r ∈ rs, plainRecord r) → readRecord tail = none →
      loadLoop fuel (saveText rs ++ tail) m = assignAll m rs := by
  induction rs with
  | nil =>
    intro fuel tail m _ _ ht
    simpa [saveText, assignAll] using loadLoop_stop fuel tail m ht
  | cons r rs ih =>
    intro fuel tail m hf hr ht
    cases fuel with
    | zero => simp at hf
    | succ f =>
      have hr1 : plainRecord r := hr r (List.mem_cons_self r rs)
      have hrs : ∀ x ∈ rs, plainRecord x := fun x hx => hr x (List.mem_cons_of_mem r hx)
      have e : saveText (r :: rs) ++ tail = saveLine r ++ (saveText rs ++ tail) := by
        simp [saveText]
      rw [e]
      simp only [loadLoop, readRecord_saveLine r hr1]
      rw [loadLoop_newline, ih f tail _ (by simpa using hf) hrs ht]
      simp [assignAll]

theorem saveLine_length (r : Str × FileInfo) : 1 ≤ (saveLine r).length := by
  simp [saveLine]; omega

theorem saveText_length (rs : List (Str × FileInfo)) : rs.length ≤ (saveText rs).length := by
  induction rs with
  | nil => simp
  | cons r rs ih =>
    have := saveLine_length r
    simp only [saveText, List.length_cons, List.length_append]
    omega

theorem loadInfo_saveText (rs : List (Str × FileInfo)) (tail : Str)
    (hr : ∀ r ∈ rs, plainRecord r) (ht : readRecord tail = none) :
    loadInfo (saveText rs ++ tail) = assignAll [] rs := by
  unfold loadInfo
  apply loadLoop_saveText rs _ tail [] _ hr ht
  have := saveText_length rs
  simp only [List.length_append]
  omega

/-! ## The table as a map -/

theorem find_assign_same (m : InfoMap) (k : Str) (v : FileInfo) :
    find (assign m k v) k = some v := by
  induction m with
  | nil => simp [assign, find]
  | cons x xs ih =>
    obtain ⟨k1, v1⟩ := x
    by_cases h : k1 = k
    · simp [assign, find, h]
    · simp [assign, find, h, ih]

theorem assign_assign (m : InfoMap) (k : Str) (v v2 : FileInfo) :
    assign (assign m k v) k v2 = assign m k v2 := by
  induction m with
  | nil => simp [assign]
  | cons x xs ih =>
    obtain ⟨k1, v1⟩ := x
    by_cases h : k1 = k
    · simp [assign, h]
    · simp [assign, h, ih]

theorem find_eq_none_iff (m : InfoMap) (k : Str) :
    find m k = none ↔ k ∉ m.map Prod.fst := by
  induction m with
  | nil => simp [find]
  | cons x xs ih =>
    obtain ⟨k1, v1⟩ := x
    by_cases h : k1 = k
    · simp [find, h]
    · have h2 : ¬ k = k1 := fun e => h e.symm
      simp [find, h, h2, ih]

theorem assign_fresh (m : InfoMap) (k : Str) (v : FileInfo) (h : k ∉ m.map Prod.fst) :
    assign m k v = m ++ [(k, v)] := by
  induction m with
  | nil => simp [assign]
  | cons x xs ih =>
    obtain ⟨k1, v1⟩ := x
    have h1 : ¬ k1 = k := by
      intro e; apply h; simp [e]
    have h2 : k ∉ xs.map Prod.fst := by
      intro e; apply h; simp only [List.map_cons, List.mem_cons]; exact Or.inr e
    simp [assign, h1, ih h2]

theorem assignAll_fresh (rs : List (Str × FileInfo)) :
    ∀ m : InfoMap, ((m ++ rs).map Prod.fst).Nodup → assignAll m rs = m ++ rs := by
  induction rs with
  | nil => intro m _; simp [assignAll]
  | cons r rs ih =>
    intro m h
    have hk : r.1 ∉ m.map Prod.fst := by
      intro hmem
      rw [List.map_append, List.nodup_append] at h
      exact h.2.2 hmem (by simp)
    have e : assignAll m (r :: rs) = assignAll (assign m r.1 r.2) rs := by
      simp [assignAll]
    rw [e, assign_fresh m r.1 r.2 hk, ih (m ++ [(r.1, r.2)]) (by simpa using h)]
    simp

theorem find_mem (m : InfoMap) (h : (m.map Prod.fst).Nodup) (k : Str) (v : FileInfo) :
    find m k = some v ↔ (k, v) ∈ m := by
  induction m with
  | nil => simp [find]
  | cons x xs ih =>
    obtain ⟨k1, v1⟩ := x
    simp only [List.map_cons, List.nodup_cons] at h
    by_cases h1 : k1 = k
    · subst h1
      have hno : ∀ v2, (k1, v2) ∉ xs := by
        intro v2 hm
        exact h.1 (List.mem_map_of_mem Prod.fst hm)
      simp [find, hno, eq_comm]
    · have h2 : ¬ k = k1 := fun e => h1 e.symm
      simp [find, h1, h2, ih h.2]

theorem find_perm (m1 m2 : InfoMap) (hp : m1.Perm m2) (h : (m2.map Prod.fst).Nodup) (k : Str) :
    find m1 k = find m2 k := by
  have h1 : (m1.map Prod.fst).Nodup := (hp.map Prod.fst).nodup_iff.2 h
  cases hv : find m2 k with
  | none =>
    rw [find_eq_none_iff] at hv ⊢
    intro hm; exact hv ((hp.map Prod.fst).mem_iff.1 hm)
  | some v =>
    rw [find_mem m2 h] at hv
    rw [find_mem m1 h1]
    exact hp.mem_iff.2 hv

/-! ## The bound on the iterations of the load loop -/

theorem readWord_length (s w rest : Str) (h : readWord s = some (w, rest)) :
    rest.length < s.length := by
  simp only [readWord] at h
  split at h
  · cases h
  · rename_i hne
    simp only [Option.some.injEq, Prod.mk.injEq] at h
    obtain ⟨hw, hrest⟩ := h
    have h1 := List.takeWhile_append_dropWhile (fun c => !isspace c) (s.dropWhile isspace)
    have h2 : (s.dropWhile isspace).length ≤ s.length :=
      (List.dropWhile_sublist isspace).length_le
    have h3 := congrArg List.length h1
    rw [List.length_append, hrest] at h3
    have h4 : 0 < ((s.dropWhile isspace).takeWhile (fun c => !isspace c)).length :=
      List.length_pos.2 hne
    omega

theorem readUInt_length (s : Str) (n : Nat) (rest : Str) (h : readUInt s = some (n, rest)) :
    rest.length ≤ s.length := by
  simp only [readUInt] at h
  have h2 : (s.dropWhile isspace).length ≤ s.length :=
    (List.dropWhile_sublist isspace).length_le
  have h5 : (s.dropWhile isspace).tail.length ≤ (s.dropWhile isspace).length := by simp
  have h6 : (if (s.dropWhile isspace).head? = some '-' ∨ (s.dropWhile isspace).head? = some '+'
      then (s.dropWhile isspace).tail else s.dropWhile isspace).length ≤ s.length := by
    split <;> omega
  generalize (if (s.dropWhile isspace).head? = some '-' ∨ (s.dropWhile isspace).head? = some '+'
      then (s.dropWhile isspace).tail else s.dropWhile isspace) = s2 at h h6
  have h3 : (s2.dropWhile isdigit).length ≤ s2.length :=
    (List.dropWhile_sublist isdigit).length_le
  by_cases c1 : s2.takeWhile isdigit = []
  · rw [if_pos c1] at h; cases h
  · rw [if_neg c1] at h
    by_cases c2 : UINTMAX_BOUND ≤ digitsValue (s2.takeWhile isdigit)
    · rw [if_pos c2] at h; cases h
    · rw [if_neg c2] at h
      simp only [Option.some.injEq, Prod.mk.injEq] at h
      rw [← h.2]
      omega

theorem readRecord_length (s : Str) (r : Str × FileInfo) (rest : Str)
    (h : readRecord s = some (r, rest)) : rest.length < s.length := by
  unfold readRecord at h
  split at h
  · cases h
  · rename_i file s1 hw
    split at h
    · cases h
    · rename_i n s2 h1
      split at h
      · cases h
      · rename_i n2 s3 h2
        simp only [Option.some.injEq, Prod.mk.injEq] at h
        have a1 := readWord_length s file s1 hw
        have a2 := readUInt_length s1 n s2 h1
        have a3 := readUInt_length s2 n2 s3 h2
        rw [← h.2]
        omega

theorem loadLoop_fuel (fuel : Nat) : ∀ (fuel2 : Nat) (s : Str) (m : InfoMap),
    s.length ≤ fuel → s.length ≤ fuel2 → loadLoop fuel s m = loadLoop fuel2 s m := by
  induction fuel with
  | zero =>
    intro fuel2 s m h1 _
    have hs : s = [] := List.length_eq_zero.1 (Nat.le_zero.1 h1)
    subst hs
    rw [loadLoop_stop fuel2 [] m (by decide)]
    rfl
  | succ f ih =>
    intro fuel2 s m h1 h2
    cases hr : readRecord s with
    | none => rw [loadLoop_stop _ s m hr, loadLoop_stop _ s m hr]
    | some x =>
      obtain ⟨r, rest⟩ := x
      have hl := readRecord_length s r rest hr
      cases fuel2 with
      | zero => omega
      | succ g =>
        simp only [loadLoop, hr]
        exact ih g rest _ (by omega) (by omega)

/-! ## Paths -/

theorem sep_not_mem_filename (p : Str) : '/' ∉ filename p := by
  intro h
  unfold filename at h
  rw [List.mem_reverse] at h
  have := List.mem_takeWhile_imp h
  simp at this

theorem filename_of_plain (n : Str) (h : '/' ∉ n) : filename n = n := by
  unfold filename
  have e : n.reverse.takeWhile (fun c => c != '/') = n.reverse := by
    rw [List.takeWhile_eq_self_iff]
    intro x hx
    rw [List.mem_reverse] at hx
    have hne : x ≠ '/' := fun e => h (e ▸ hx)
    simp [hne]
  rw [e, List.reverse_reverse]

theorem filename_append (pre n : Str) (h : '/' ∉ n) (hpre : pre = [] ∨ ∃ q, pre = q ++ ['/']) :
    filename (pre ++ n) = n := by
  rcases hpre with rfl | ⟨q, rfl⟩
  · simpa using filename_of_plain n h
  · unfold filename
    have hall : ∀ x ∈ n.reverse, (fun c : Char => c != '/') x = true := by
      intro x hx
      rw [List.mem_reverse] at hx
      have hne : x ≠ '/' := fun e => h (e ▸ hx)
      simp [hne]
    have e : (q ++ ['/'] ++ n).reverse = n.reverse ++ '/' :: q.reverse := by simp
    rw [e, takeWhile_front _ n.reverse '/' q.reverse hall (by decide), List.reverse_reverse]

theorem head_ne_sep (n : Str) (h : '/' ∉ n) : n.head? ≠ some '/' := by
  cases n with
  | nil => simp
  | cons c cs =>
    intro e
    simp only [List.head?_cons, Option.some.injEq] at e
    exact h (e ▸ List.mem_cons_self c cs)

theorem pathJoin_eq_append (d : Str) :
    ∃ pre, (pre = [] ∨ ∃ q, pre = q ++ ['/']) ∧ ∀ m : Str, m.head? ≠ some '/' →
      pathJoin d m = pre ++ m := by
  by_cases c : d = [] ∨ d.getLast? = some '/'
  · refine ⟨d, ?_, ?_⟩
    · rcases c with c | c
      · exact Or.inl c
      · exact Or.inr (List.getLast?_eq_some_iff.1 c)
    · intro m hm
      simp [pathJoin, hm, c]
  · refine ⟨d ++ ['/'], Or.inr ⟨d, rfl⟩, ?_⟩
    intro m hm
    simp [pathJoin, hm, c]

theorem filename_pathJoin (d n : Str) (h : '/' ∉ n) : filename (pathJoin d n) = n := by
  obtain ⟨pre, hpre, e⟩ := pathJoin_eq_append d
  rw [e n (head_ne_sep n h)]
  exact filename_append pre n h hpre

theorem pathJoin_inj (d x y : Str) (hx : x.head? ≠ some '/') (hy : y.head? ≠ some '/')
    (h : pathJoin d x = pathJoin d y) : x = y := by
  obtain ⟨pre, _, e⟩ := pathJoin_eq_append d
  rw [e x hx, e y hy] at h
  exact List.append_cancel_left h

theorem filename_filename (p : Str) : filename (filename p) = filename p :=
  filename_of_plain _ (sep_not_mem_filename p)

theorem extension_filename (p : Str) : extension (filename p) = extension p := by
  unfold extension
  rw [filename_filename]

theorem extension_length_le (p : Str) : (extension p).length ≤ (filename p).length := by
  unfold extension
  simp only []
  split
  · simp
  · split
    · simp
    · split
      · simp
      · simp

theorem stem_append_extension (p : Str) : stem p ++ extension p = filename p := by
  have hle := extension_length_le p
  unfold stem
  simp only []
  have key : extension p = (filename p).drop ((filename p).length - (extension p).length) := by
    unfold extension
    simp only []
    split
    · simp
    · split
      · simp
      · split
        · simp
        · rw [List.length_drop]
          congr 1
          omega
  conv_lhs => rw [key]
  rw [← key]
  conv_lhs => rhs; rw [key]
  exact List.take_append_drop _ _

theorem sep_not_mem_stem (p : Str) : '/' ∉ stem p := by
  intro h
  unfold stem at h
  exact sep_not_mem_filename p (List.mem_of_mem_take h)

theorem stem_ne_nil (p : Str) (h : extension p = dotCpp) : stem p ≠ [] := by
  intro hs
  have e := stem_append_extension p
  rw [hs, h, List.nil_append] at e
  have h2 := extension_filename p
  rw [← e, h] at h2
  revert h2
  decide

theorem extension_object (s : Str) (hne : s ≠ []) (hs : '/' ∉ s) :
    extension (s ++ dotO) = dotO := by
  have hf : filename (s ++ dotO) = s ++ dotO := by
    apply filename_of_plain
    intro h
    rcases List.mem_append.1 h with h | h
    · exact hs h
    · revert h; decide
  have hpos : 0 < s.length := List.length_pos.2 hne
  have hsuf : ((s ++ dotO).reverse.takeWhile (fun c => c != '.')).reverse = ['o'] := by
    simp [dotO, List.takeWhile]
  unfold extension
  simp only [hf, hsuf]
  have hl : (s ++ dotO).length = s.length + 2 := by simp [dotO]
  have hne2 : s ++ dotO ≠ ['.', '.'] := by
    intro e
    have h3 := congrArg List.length e
    rw [hl] at h3
    simp only [List.length_cons, List.length_nil] at h3
    omega
  rw [hl]
  simp only [List.length_singleton]
  rw [if_neg (by omega), if_neg (by omega), if_neg hne2]
  exact List.drop_left' (by omega)

theorem eligible_iff (p : Str) :
    eligible p = true ↔ extension p = dotCpp ∧ filename p ≠ mainCpp := by
  simp [eligible]

theorem extension_objPath (d p : Str) (h : eligible p = true) :
    extension (pathJoin d (stem p ++ dotO)) = dotO := by
  have hext := ((eligible_iff p).1 h).1
  have hs : '/' ∉ stem p ++ dotO := by
    intro hm
    rcases List.mem_append.1 hm with hm | hm
    · exact sep_not_mem_stem p hm
    · revert hm; decide
  rw [← extension_filename, filename_pathJoin d _ hs]
  exact extension_object (stem p) (stem_ne_nil p hext) (sep_not_mem_stem p)

theorem objName_inj (d n1 n2 : Str) (h1 : '/' ∉ n1) (h2 : '/' ∉ n2)
    (e1 : eligible (pathJoin d n1) = true) (e2 : eligible (pathJoin d n2) = true)
    (h : stem (pathJoin d n1) ++ dotO = stem (pathJoin d n2) ++ dotO) : n1 = n2 := by
  have hs : stem (pathJoin d n1) = stem (pathJoin d n2) := List.append_cancel_right h
  have a1 := stem_append_extension (pathJoin d n1)
  have a2 := stem_append_extension (pathJoin d n2)
  rw [((eligible_iff _).1 e1).1, filename_pathJoin d n1 h1] at a1
  rw [((eligible_iff _).1 e2).1, filename_pathJoin d n2 h2] at a2
  rw [← a1, ← a2, hs]

/-! ## Directories -/

theorem marker_eq_none_iff (d : List (Str × Nat)) (n : Str) :
    marker d n = none ↔ n ∉ d.map Prod.fst := by
  induction d with
  | nil => simp [marker]
  | cons x xs ih =>
    obtain ⟨k1, v1⟩ := x
    by_cases h : k1 = n
    · simp [marker, h]
    · have h2 : ¬ n = k1 := fun e => h e.symm
      simp [marker, h, h2, ih]

theorem marker_writeFile_other (d : List (Str × Nat)) (n n2 : Str) (t : Nat) (h : n ≠ n2) :
    marker (writeFile d n t) n2 = marker d n2 := by
  induction d with
  | nil => simp [writeFile, marker, h]
  | cons x xs ih =>
    obtain ⟨k1, v1⟩ := x
    by_cases h1 : k1 = n
    · subst h1; simp [writeFile, marker, h]
    · by_cases h2 : k1 = n2
      · subst h2; simp [writeFile, marker, h1]
      · simp [writeFile, marker, h1, h2, ih]

theorem names_writeFile (d : List (Str × Nat)) (n : Str) (t : Nat) :
    (writeFile d n t).map Prod.fst
      = if n ∈ d.map Prod.fst then d.map Prod.fst else d.map Prod.fst ++ [n] := by
  induction d with
  | nil => simp [writeFile]
  | cons x xs ih =>
    obtain ⟨k1, v1⟩ := x
    by_cases h1 : k1 = n
    · subst h1; simp [writeFile]
    · have h2 : ¬ n = k1 := fun e => h1 e.symm
      simp only [writeFile, h1, if_false, List.map_cons, ih, List.mem_cons, h2, false_or]
      split <;> simp

theorem mem_names_writeFile (d : List (Str × Nat)) (n : Str) (t : Nat) (x : Str) :
    x ∈ (writeFile d n t).map Prod.fst ↔ x ∈ d.map Prod.fst ∨ x = n := by
  rw [names_writeFile]
  split
  · rename_i h
    constructor
    · exact Or.inl
    · rintro (h1 | h1)
      · exact h1
      · rw [h1]; exact h
  · simp

theorem listing_writeFile (d : List (Str × Nat)) (n : Str) (t : Nat) (hd : Listing d)
    (hn : '/' ∉ n) : Listing (writeFile d n t) := by
  obtain ⟨h1, h2⟩ := hd
  constructor
  · rw [names_writeFile]
    split
    · exact h1
    · rename_i hmem
      rw [List.nodup_append]
      refine ⟨h1, by simp, ?_⟩
      intro x hx hx2
      simp only [List.mem_singleton] at hx2
      exact hmem (hx2 ▸ hx)
  · intro e he
    have hmem : e.1 ∈ (writeFile d n t).map Prod.fst := List.mem_map_of_mem Prod.fst he
    rw [mem_names_writeFile] at hmem
    rcases hmem with hmem | hmem
    · obtain ⟨e2, he2, heq⟩ := List.mem_map.1 hmem
      rw [← heq]; exact h2 e2 he2
    · rw [hmem]; exact hn

theorem marker_removeFile (d : List (Str × Nat)) (n n2 : Str) :
    marker (removeFile d n) n2 = if n2 = n then none else marker d n2 := by
  induction d with
  | nil => simp [removeFile, marker]
  | cons x xs ih =>
    obtain ⟨k1, v1⟩ := x
    unfold removeFile at ih ⊢
    by_cases h1 : k1 = n
    · subst h1
      simp only [List.filter, bne_self_eq_false, ih]
      by_cases h2 : n2 = k1
      · simp [h2]
      · have h3 : ¬ k1 = n2 := fun e => h2 e.symm
        simp [h2, marker, h3]
    · have hb : ((k1, v1).1 != n) = true := by simp [h1]
      simp only [List.filter, hb, marker, ih]
      by_cases h2 : k1 = n2
      · subst h2; simp [h1]
      · simp [h2]

/-! ## Loops -/

theorem forEach_append {σ α : Type} (step : σ → α → σ × Bool) (xs ys : List α) :
    ∀ s, forEach step (xs ++ ys) s =
      match forEach step xs s with
      | (s1, true) => forEach step ys s1
      | (s1, false) => (s1, false) := by
  induction xs with
  | nil => intro s; rfl
  | cons x xs ih =>
    intro s
    simp only [List.cons_append, forEach]
    rcases h : step s x with ⟨s1, b⟩
    cases b with
    | true => exact ih s1
    | false => rfl

theorem forEach_inv {σ α : Type} (step : σ → α → σ × Bool) (P : σ → Bool → Prop)
    (hstep : ∀ s x, P s true → P (step s x).1 (step s x).2) :
    ∀ xs s, P s true → P (forEach step xs s).1 (forEach step xs s).2 := by
  intro xs
  induction xs with
  | nil => intro s h; exact h
  | cons x xs ih =>
    intro s h
    have h1 := hstep s x h
    simp only [forEach]
    rcases hs : step s x with ⟨s1, b⟩
    rw [hs] at h1
    cases b with
    | true => exact ih s1 h1
    | false => exact h1

theorem forEach_calls {σ α : Type} (step : σ → α → σ × Bool) (calls : σ → List Call)
    (O : α → Call → Prop)
    (hstep : ∀ s x, ∃ cs, calls (step s x).1 = calls s ++ cs ∧ ∀ c ∈ cs, O x c) :
    ∀ xs s, ∃ cs, calls (forEach step xs s).1 = calls s ++ cs ∧
      ∀ c ∈ cs, ∃ x ∈ xs, O x c := by
  intro xs
  induction xs with
  | nil => intro s; exact ⟨[], by simp [forEach], by simp⟩
  | cons x xs ih =>
    intro s
    obtain ⟨cs1, h1, o1⟩ := hstep s x
    simp only [forEach]
    rcases hs : step s x with ⟨s1, b⟩
    rw [hs] at h1
    cases b with
    | true =>
      obtain ⟨cs2, h2, o2⟩ := ih s1
      refine ⟨cs1 ++ cs2, ?_, ?_⟩
      · simp only [] at h1 ⊢
        rw [h2, h1, List.append_assoc]
      · intro c hc
        rcases List.mem_append.1 hc with hc | hc
        · exact ⟨x, List.mem_cons_self x xs, o1 c hc⟩
        · obtain ⟨y, hy, hO⟩ := o2 c hc
          exact ⟨y, List.mem_cons_of_mem x hy, hO⟩
    | false =>
      exact ⟨cs1, h1, fun c hc => ⟨x, List.mem_cons_self x xs, o1 c hc⟩⟩

theorem forEach_preserve {σ α β : Type} (step : σ → α → σ × Bool) (f : σ → β)
    (C : α → Prop) (hstep : ∀ s x, C x → f (step s x).1 = f s) :
    ∀ xs s, (∀ x ∈ xs, C x) → f (forEach step xs s).1 = f s := by
  intro xs
  induction xs with
  | nil => intro s _; rfl
  | cons x xs ih =>
    intro s h
    have h1 := hstep s x (h x (List.mem_cons_self x xs))
    simp only [forEach]
    rcases hs : step s x with ⟨s1, b⟩
    rw [hs] at h1
    cases b with
    | true =>
      simp only [] at h1 ⊢
      rw [ih s1 (fun y hy => h y (List.mem_cons_of_mem x hy)), h1]
    | false => exact h1

/-! ## The body of the compile loop, case by case -/

theorem assign_fields (m : InfoMap) (k : Str) (n t : Nat) :
    assignObjTime (assignCppSize m k n) k t = assign m k ⟨n, t⟩ := by
  unfold assignCppSize
  cases h : find m k with
  | none => simp only [assignObjTime, find_assign_same, assign_assign]
  | some r => simp only [assignObjTime, find_assign_same, assign_assign]

theorem assignObjTime_assign (m : InfoMap) (k : Str) (n t t2 : Nat) :
    assignObjTime (assign m k ⟨n, t⟩) k t2 = assign m k ⟨n, t2⟩ := by
  simp only [assignObjTime, find_assign_same, assign_assign]

theorem compileEntry_skip (a : Args) (t : Tools) (L : InfoMap) (st : State) (e : Str × Nat)
    (h : eligible (srcPath a e) = false) : compileEntry a t L st e = (st, true) := by
  unfold srcPath at h
  simp [compileEntry, h]

theorem compileEntry_keep (a : Args) (t : Tools) (L : InfoMap) (st : State) (e : Str × Nat)
    (h : eligible (srcPath a e) = true)
    (h2 : needsCompile L (srcPath a e) e.2
      (marker st.out (objFileName (srcPath a e))).isSome = false) :
    compileEntry a t L st e =
      ({ st with newInfo := (assign st.newInfo (srcPath a e)
          ⟨e.2, (marker st.out (objFileName (srcPath a e))).getD 0⟩) }, true) := by
  unfold srcPath at h h2 ⊢
  simp [compileEntry, h, h2, assign_fields]

theorem compileEntry_ok (a : Args) (t : Tools) (L : InfoMap) (st : State) (e : Str × Nat)
    (h : eligible (srcPath a e) = true)
    (h2 : needsCompile L (srcPath a e) e.2
      (marker st.out (objFileName (srcPath a e))).isSome = true)
    (tm : Nat) (h3 : t.cc (srcPath a e) (objFile a (srcPath a e)) a.includeDir = some tm) :
    compileEntry a t L st e =
      ({ st with
          newInfo := assign st.newInfo (srcPath a e) ⟨e.2, tm⟩
          out := writeFile st.out (objFileName (srcPath a e)) tm
          calls := st.calls ++ [compileCall a e true]
          anyCompiled := true }, true) := by
  unfold compileCall
  unfold srcPath at h h2 h3 ⊢
  simp [compileEntry, h, h2, h3, assign_fields, assignObjTime_assign]

theorem compileEntry_fail (a : Args) (t : Tools) (L : InfoMap) (st : State) (e : Str × Nat)
    (h : eligible (srcPath a e) = true)
    (h2 : needsCompile L (srcPath a e) e.2
      (marker st.out (objFileName (srcPath a e))).isSome = true)
    (h3 : t.cc (srcPath a e) (objFile a (srcPath a e)) a.includeDir = none) :
    compileEntry a t L st e =
      ({ st with
          newInfo := (assign st.newInfo (srcPath a e)
            ⟨e.2, (marker st.out (objFileName (srcPath a e))).getD 0⟩)
          calls := st.calls ++ [compileCall a e false]
          msgs := st.msgs ++ [Msg.compileFailed (filename (srcPath a e))] }, false) := by
  unfold compileCall
  unfold srcPath at h h2 h3 ⊢
  simp [compileEntry, h, h2, h3, assign_fields]

/-- The four ways the body of the compile loop can go. -/
theorem compileEntry_cases (a : Args) (t : Tools) (L : InfoMap) (st : State) (e : Str × Nat) :
    (toCompile a L st.out e = false ∧ (compileEntry a t L st e).2 = true ∧
      (compileEntry a t L st e).1.calls = st.calls ∧
      (compileEntry a t L st e).1.out = st.out) ∨
    (toCompile a L st.out e = true ∧
      ∃ ok, (compileEntry a t L st e).2 = ok ∧
        (compileEntry a t L st e).1.calls = st.calls ++ [compileCall a e ok] ∧
        (t.cc (srcPath a e) (objFile a (srcPath a e)) a.includeDir).isSome = ok) := by
  by_cases h : eligible (srcPath a e) = true
  · by_cases h2 : needsCompile L (srcPath a e) e.2
        (marker st.out (objFileName (srcPath a e))).isSome = true
    · right
      refine ⟨by simp [toCompile, h, h2], ?_⟩
      cases h3 : t.cc (srcPath a e) (objFile a (srcPath a e)) a.includeDir with
      | none => exact ⟨false, by simp [compileEntry_fail a t L st e h h2 h3]⟩
      | some tm => exact ⟨true, by simp [compileEntry_ok a t L st e h h2 tm h3]⟩
    · left
      have h2f := Bool.eq_false_iff.2 h2
      exact ⟨by simp [toCompile, h, h2f], by simp [compileEntry_keep a t L st e h h2f]⟩
  · left
    have hf := Bool.eq_false_iff.2 h
    exact ⟨by simp [toCompile, hf], by simp [compileEntry_skip a t L st e hf]⟩

/-! ## Fail-fast shape of the calls -/

theorem allOk_append_ok (cs : List Call) (c : Call) (h : AllOk cs) (hc : c.ok = true) :
    AllOk (cs ++ [c]) := by
  intro x hx
  rcases List.mem_append.1 hx with hx | hx
  · exact h x hx
  · rw [List.mem_singleton.1 hx]; exact hc

theorem compileEntry_shape (a : Args) (t : Tools) (L : InfoMap) (st : State) (e : Str × Nat)
    (h : AllOk st.calls) :
    (if (compileEntry a t L st e).2 then AllOk (compileEntry a t L st e).1.calls
     else FailedLast (compileEntry a t L st e).1.calls) := by
  rcases compileEntry_cases a t L st e with ⟨_, h2, h3, _⟩ | ⟨_, ok, h2, h3, _⟩
  · rw [h2, h3]; exact h
  · rw [h2, h3]
    cases ok with
    | true => exact allOk_append_ok _ _ h rfl
    | false => exact ⟨st.calls, _, rfl, rfl, h⟩

theorem archiveEntry_cases (a : Args) (t : Tools) (L N : InfoMap) (st : State) (e : Str × Nat) :
    ((extension (outPath a e) == dotO && addToLib a L (t.order N) (outPath a e)) = false ∧
      archiveEntry a t L N st e = (st, true)) ∨
    ((extension (outPath a e) == dotO && addToLib a L (t.order N) (outPath a e)) = true ∧
      t.ar (libPath a) (outPath a e) = true ∧
      archiveEntry a t L N st e =
        ({ st with
            out := removeFile st.out e.1
            lib := some (addMember st.lib (outPath a e))
            calls := st.calls ++ [archiveCall a e true]
            libUpdated := true }, true)) ∨
    ((extension (outPath a e) == dotO && addToLib a L (t.order N) (outPath a e)) = true ∧
      t.ar (libPath a) (outPath a e) = false ∧
      archiveEntry a t L N st e =
        ({ st with
            calls := st.calls ++ [archiveCall a e false]
            msgs := st.msgs ++ [Msg.addFailed (filename (outPath a e))] }, false)) := by
  unfold archiveCall outPath
  by_cases h1 : extension (pathJoin a.outputDir e.1) = dotO
  · by_cases h2 : addToLib a L (t.order N) (pathJoin a.outputDir e.1) = true
    · by_cases h3 : t.ar (libPath a) (pathJoin a.outputDir e.1) = true
      · right; left
        simp [archiveEntry, h1, h2, h3]
      · right; right
        simp [archiveEntry, h1, h2, h3]
    · left
      simp [archiveEntry, h1, h2]
  · left
    simp [archiveEntry, h1]

theorem archiveEntry_shape (a : Args) (t : Tools) (L N : InfoMap) (st : State) (e : Str × Nat)
    (h : AllOk st.calls) :
    (if (archiveEntry a t L N st e).2 then AllOk (archiveEntry a t L N st e).1.calls
     else FailedLast (archiveEntry a t L N st e).1.calls) := by
  rcases archiveEntry_cases a t L N st e with ⟨_, h2⟩ | ⟨_, _, h2⟩ | ⟨_, _, h2⟩
  · rw [h2]; exact h
  · rw [h2]; exact allOk_append_ok _ _ h rfl
  · rw [h2]; exact ⟨st.calls, _, rfl, rfl, h⟩

theorem compilePhase_shape (a : Args) (t : Tools) (w : Files) :
    (if (compilePhase a t w).2 then AllOk (compilePhase a t w).1.calls
     else FailedLast (compilePhase a t w).1.calls) := by
  have h := forEach_inv (compileEntry a t (loadCache w.cache))
    (fun s b => if b then AllOk s.calls else FailedLast s.calls)
    (fun s x hs => compileEntry_shape a t _ s x hs) w.src (initState w)
    (by intro c hc; simp [initState] at hc)
  unfold compilePhase
  rcases hf : forEach (compileEntry a t (loadCache w.cache)) w.src (initState w) with ⟨st, b⟩
  rw [hf] at h
  cases b with
  | false => exact h
  | true =>
    have h2 : AllOk st.calls := h
    simp only [if_true]
    split <;> exact h2

theorem archiveLoop_shape (a : Args) (t : Tools) (L : InfoMap) (st : State)
    (h : AllOk st.calls) :
    (if (archiveLoop a t L st).2 then AllOk (archiveLoop a t L st).1.calls
     else FailedLast (archiveLoop a t L st).1.calls) :=
  forEach_inv (archiveEntry a t L st.newInfo)
    (fun s b => if b then AllOk s.calls else FailedLast s.calls)
    (fun s x hs => archiveEntry_shape a t L _ s x hs) (t.scan st.out) st h

theorem createLib_shape (a : Args) (t : Tools) (st : State) (h : AllOk st.calls) :
    (if (createLib a t st).2 then AllOk (createLib a t st).1.calls
     else FailedLast (createLib a t st).1.calls) := by
  unfold createLib
  cases st.lib with
  | some ms => exact h
  | none =>
    simp only []
    split
    · exact allOk_append_ok _ _ h rfl
    · exact ⟨st.calls, _, rfl, rfl, h⟩

/-! ## The compile loop when every compilation succeeds -/

theorem listing_tail (e : Str × Nat) (xs : List (Str × Nat)) (h : Listing (e :: xs)) :
    Listing xs ∧ (∀ x ∈ xs, x.1 ≠ e.1) ∧ '/' ∉ e.1 := by
  obtain ⟨h1, h2⟩ := h
  simp only [List.map_cons, List.nodup_cons] at h1
  refine ⟨⟨h1.2, fun x hx => h2 x (List.mem_cons_of_mem e hx)⟩, ?_, h2 e (List.mem_cons_self e xs)⟩
  intro x hx heq
  exact h1.1 (heq ▸ List.mem_map_of_mem Prod.fst hx)

theorem objFileName_ne (a : Args) (e x : Str × Nat) (he : '/' ∉ e.1) (hx : '/' ∉ x.1)
    (hne : x.1 ≠ e.1) (ee : eligible (srcPath a e) = true) (ex : eligible (srcPath a x) = true) :
    objFileName (srcPath a e) ≠ objFileName (srcPath a x) := by
  intro h
  exact hne (objName_inj a.sourceDir x.1 e.1 hx he ex ee h.symm)

theorem toCompile_write (a : Args) (L : InfoMap) (out : List (Str × Nat)) (e x : Str × Nat)
    (tm : Nat) (he : '/' ∉ e.1) (hx : '/' ∉ x.1) (hne : x.1 ≠ e.1)
    (ee : eligible (srcPath a e) = true) :
    toCompile a L (writeFile out (objFileName (srcPath a e)) tm) x = toCompile a L out x := by
  unfold toCompile
  cases ex : eligible (srcPath a x) with
  | false => rfl
  | true =>
    rw [marker_writeFile_other _ _ _ _ (objFileName_ne a e x he hx hne ee ex)]

theorem newRecord_write (a : Args) (t : Tools) (L : InfoMap) (out : List (Str × Nat))
    (e x : Str × Nat) (tm : Nat) (he : '/' ∉ e.1) (hx : '/' ∉ x.1) (hne : x.1 ≠ e.1)
    (ee : eligible (srcPath a e) = true) (ex : eligible (srcPath a x) = true) :
    newRecord a t L (writeFile out (objFileName (srcPath a e)) tm) x = newRecord a t L out x := by
  unfold newRecord
  rw [marker_writeFile_other _ _ _ _ (objFileName_ne a e x he hx hne ee ex)]

theorem compileLoop_ok (a : Args) (t : Tools) (L : InfoMap) :
    ∀ (xs : List (Str × Nat)) (s s2 : State), Listing xs →
      forEach (compileEntry a t L) xs s = (s2, true) →
      s2.newInfo = assignAll s.newInfo
        ((xs.filter (fun e => eligible (srcPath a e))).map (newRecord a t L s.out)) ∧
      s2.calls = s.calls ++
        (xs.filter (toCompile a L s.out)).map (fun e => compileCall a e true) ∧
      s2.out = writeAll s.out
        ((xs.filter (toCompile a L s.out)).map
          (fun e => (objFileName (srcPath a e), ccTime a t e))) ∧
      s2.lib = s.lib ∧ s2.libUpdated = s.libUpdated ∧
      s2.anyCompiled = (s.anyCompiled || (xs.any (toCompile a L s.out))) ∧
      s2.msgs = s.msgs ∧
      (∀ e ∈ xs, toCompile a L s.out e = true →
        t.cc (srcPath a e) (objFile a (srcPath a e)) a.includeDir = some (ccTime a t e)) := by
  intro xs
  induction xs with
  | nil =>
    intro s s2 _ h
    simp only [forEach, Prod.mk.injEq, and_true] at h
    subst h
    simp [assignAll, writeAll]
  | cons e rest ih =>
    intro s s2 hl h
    obtain ⟨hl2, hne, he⟩ := listing_tail e rest hl
    simp only [forEach] at h
    by_cases h1 : eligible (srcPath a e) = true
    · by_cases h2 : needsCompile L (srcPath a e) e.2
          (marker s.out (objFileName (srcPath a e))).isSome = true
      · have htc : toCompile a L s.out e = true := by simp [toCompile, h1, h2]
        cases h3 : t.cc (srcPath a e) (objFile a (srcPath a e)) a.includeDir with
        | none =>
          rw [compileEntry_fail a t L s e h1 h2 h3] at h
          simp at h
        | some tm =>
          rw [compileEntry_ok a t L s e h1 h2 tm h3] at h
          simp only [] at h
          have hcc : ccTime a t e = tm := by simp [ccTime, h3]
          obtain ⟨i1, i2, i3, i4, i5, i6, i7, i8⟩ := ih _ s2 hl2 h
          simp only [] at i1 i2 i3 i4 i5 i6 i7 i8
          have c1 : rest.filter (toCompile a L (writeFile s.out (objFileName (srcPath a e)) tm))
              = rest.filter (toCompile a L s.out) :=
            List.filter_congr (fun x hx =>
              toCompile_write a L s.out e x tm he (hl2.2 x hx) (hne x hx) h1)
          have c2 : (rest.filter (fun e => eligible (srcPath a e))).map
                (newRecord a t L (writeFile s.out (objFileName (srcPath a e)) tm))
              = (rest.filter (fun e => eligible (srcPath a e))).map (newRecord a t L s.out) := by
            apply List.map_congr_left
            intro x hx
            have hx1 := List.mem_filter.1 hx
            exact newRecord_write a t L s.out e x tm he (hl2.2 x hx1.1) (hne x hx1.1) h1 hx1.2
          have c3 : rest.any (toCompile a L (writeFile s.out (objFileName (srcPath a e)) tm))
              = rest.any (toCompile a L s.out) := by
            rw [Bool.eq_iff_iff]
            simp only [List.any_eq_true]
            constructor
            · rintro ⟨x, hx, hx2⟩
              exact ⟨x, hx, by
                rw [← toCompile_write a L s.out e x tm he (hl2.2 x hx) (hne x hx) h1]; exact hx2⟩
            · rintro ⟨x, hx, hx2⟩
              exact ⟨x, hx, by
                rw [toCompile_write a L s.out e x tm he (hl2.2 x hx) (hne x hx) h1]; exact hx2⟩
          rw [c1] at i2 i3
          rw [c2] at i1
          rw [c3] at i6
          have hrec : newRecord a t L s.out e = (srcPath a e, ⟨e.2, tm⟩) := by
            simp [newRecord, h2, hcc]
          refine ⟨?_, ?_, ?_, i4, i5, ?_, i7, ?_⟩
          · rw [i1]; simp [List.filter, h1, assignAll, hrec]
          · rw [i2]; simp [List.filter, htc]
          · rw [i3]; simp [List.filter, htc, writeAll, hcc]
          · rw [i6]; simp [htc]
          · intro x hx hx2
            rcases List.mem_cons.1 hx with hx | hx
            · rw [hx, hcc]; exact h3
            · apply i8 x hx
              rw [toCompile_write a L s.out e x tm he (hl2.2 x hx) (hne x hx) h1]; exact hx2
      · have h2f := Bool.eq_false_iff.2 h2
        have htc : toCompile a L s.out e = false := by simp [toCompile, h1, h2f]
        rw [compileEntry_keep a t L s e h1 h2f] at h
        simp only [] at h
        obtain ⟨i1, i2, i3, i4, i5, i6, i7, i8⟩ := ih _ s2 hl2 h
        simp only [] at i1 i2 i3 i4 i5 i6 i7 i8
        have hrec : newRecord a t L s.out e
            = (srcPath a e, ⟨e.2, (marker s.out (objFileName (srcPath a e))).getD 0⟩) := by
          simp [newRecord, h2f]
        refine ⟨?_, ?_, ?_, i4, i5, ?_, i7, ?_⟩
        · rw [i1]; simp [List.filter, h1, assignAll, hrec]
        · rw [i2]; simp [List.filter, htc]
        · rw [i3]; simp [List.filter, htc]
        · rw [i6]; simp [htc]
        · intro x hx hx2
          rcases List.mem_cons.1 hx with hx | hx
          · rw [hx, htc] at hx2; cases hx2
          · exact i8 x hx hx2
    · have h1f := Bool.eq_false_iff.2 h1
      have htc : toCompile a L s.out e = false := by simp [toCompile, h1f]
      rw [compileEntry_skip a t L s e h1f] at h
      simp only [] at h
      obtain ⟨i1, i2, i3, i4, i5, i6, i7, i8⟩ := ih _ s2 hl2 h
      refine ⟨?_, ?_, ?_, i4, i5, ?_, i7, ?_⟩
      · rw [i1]; simp [List.filter, h1f]
      · rw [i2]; simp [List.filter, htc]
      · rw [i3]; simp [List.filter, htc]
      · rw [i6]; simp [htc]
      · intro x hx hx2
        rcases List.mem_cons.1 hx with hx | hx
        · rw [hx, htc] at hx2; cases hx2
        · exact i8 x hx hx2

/-! ## The archive loop when every call of the archiver succeeds -/

theorem archiveLoop_ok (a : Args) (t : Tools) (L N : InfoMap) :
    ∀ (xs : List (Str × Nat)) (s s2 : State),
      forEach (archiveEntry a t L N) xs s = (s2, true) →
      s2.calls = s.calls ++ (xs.filter (toArchive a t L N)).map (fun e => archiveCall a e true) ∧
      s2.out = s.out.filter
        (fun x => !(xs.filter (toArchive a t L N)).any (fun e => e.1 == x.1)) ∧
      s2.lib = libAfter s.lib ((xs.filter (toArchive a t L N)).map (outPath a)) ∧
      s2.newInfo = s.newInfo ∧
      s2.libUpdated = (s.libUpdated || xs.any (toArchive a t L N)) ∧
      s2.msgs = s.msgs ∧
      (∀ e ∈ xs, toArchive a t L N e = true → t.ar (libPath a) (outPath a e) = true) := by
  intro xs
  induction xs with
  | nil =>
    intro s s2 h
    simp only [forEach, Prod.mk.injEq, and_true] at h
    subst h
    simp [libAfter]
  | cons e rest ih =>
    intro s s2 h
    simp only [forEach] at h
    rcases archiveEntry_cases a t L N s e with ⟨hc, h2⟩ | ⟨hc, har, h2⟩ | ⟨hc, _, h2⟩
    · rw [h2] at h
      simp only [] at h
      have hta : toArchive a t L N e = false := hc
      obtain ⟨i1, i2, i3, i4, i5, i6, i7⟩ := ih s s2 h
      refine ⟨?_, ?_, ?_, i4, ?_, i6, ?_⟩
      · rw [i1]; simp [List.filter, hta]
      · rw [i2]; simp [List.filter, hta]
      · rw [i3]; simp [List.filter, hta]
      · rw [i5]; simp [hta]
      · intro x hx hx2
        rcases List.mem_cons.1 hx with hx | hx
        · rw [hx, hta] at hx2; cases hx2
        · exact i7 x hx hx2
    · rw [h2] at h
      simp only [] at h
      have hta : toArchive a t L N e = true := hc
      obtain ⟨i1, i2, i3, i4, i5, i6, i7⟩ := ih _ s2 h
      simp only [] at i1 i2 i3 i4 i5 i6 i7
      refine ⟨?_, ?_, ?_, i4, ?_, i6, ?_⟩
      · rw [i1]; simp [List.filter, hta]
      · rw [i2]
        simp only [removeFile, List.filter_filter, List.filter, hta, List.any_cons]
        apply List.filter_congr
        intro x _
        by_cases hx : e.1 = x.1
        · simp [hx]
        · have b1 : (e.1 == x.1) = false := by simp [hx]
          have b2 : (x.1 != e.1) = true := by
            simp only [bne_iff_ne]; exact fun h => hx h.symm
          simp only [b1, b2, Bool.and_true, Bool.not_false, Bool.true_and, Bool.false_or]
      · rw [i3]; simp [List.filter, hta, libAfter]
      · rw [i5]; simp [hta]
      · intro x hx _
        rcases List.mem_cons.1 hx with hx | hx
        · rw [hx]; exact har
        · rename_i hx2
          exact i7 x hx hx2
    · rw [h2] at h
      simp at h

theorem libAfter_mem (objs : List Str) : ∀ (lib : Option (List Str)) (o : Str),
    (o ∈ objs ∨ ∃ ms, lib = some ms ∧ o ∈ ms) →
    ∃ ms, libAfter lib objs = some ms ∧ o ∈ ms := by
  induction objs with
  | nil =>
    intro lib o h
    rcases h with h | h
    · cases h
    · exact h
  | cons x xs ih =>
    intro lib o h
    have e : libAfter lib (x :: xs) = libAfter (some (addMember lib x)) xs := rfl
    rw [e]
    apply ih
    rcases h with h | ⟨ms, h1, h2⟩
    · rcases List.mem_cons.1 h with h | h
      · right
        refine ⟨_, rfl, ?_⟩
        rw [h]
        cases lib with
        | none => simp [addMember]
        | some ms =>
          simp only [addMember]
          split
          · assumption
          · simp
      · exact Or.inl h
    · right
      refine ⟨_, rfl, ?_⟩
      subst h1
      simp only [addMember]
      split
      · exact h2
      · exact List.mem_append_left _ h2

theorem libAfter_isSome (objs : List Str) (lib : Option (List Str))
    (h : objs ≠ [] ∨ lib.isSome = true) : (libAfter lib objs).isSome = true := by
  rcases h with h | h
  · obtain ⟨o, os, rfl⟩ := List.exists_cons_of_ne_nil h
    obtain ⟨ms, h1, _⟩ := libAfter_mem (o :: os) lib o (Or.inl (List.mem_cons_self o os))
    rw [h1]; rfl
  · cases objs with
    | nil => exact h
    | cons o os =>
      obtain ⟨ms, h1, _⟩ := libAfter_mem (o :: os) lib o (Or.inl (List.mem_cons_self o os))
      rw [h1]; rfl

/-! ## The source paths of a listing -/

theorem srcPath_inj (a : Args) (x y : Str × Nat) (hx : '/' ∉ x.1) (hy : '/' ∉ y.1)
    (h : srcPath a x = srcPath a y) : x.1 = y.1 :=
  pathJoin_inj a.sourceDir x.1 y.1 (head_ne_sep _ hx) (head_ne_sep _ hy) h

theorem srcPaths_nodup (a : Args) (xs : List (Str × Nat)) (h : Listing xs) :
    (xs.map (srcPath a)).Nodup := by
  induction xs with
  | nil => simp
  | cons e rest ih =>
    obtain ⟨hl2, hne, he⟩ := listing_tail e rest h
    rw [List.map_cons, List.nodup_cons]
    refine ⟨?_, ih hl2⟩
    intro hm
    obtain ⟨x, hx, heq⟩ := List.mem_map.1 hm
    exact hne x hx (srcPath_inj a x e (hl2.2 x hx) he heq)

theorem newTable_keys (a : Args) (t : Tools) (w : Files) :
    (newTable a t w).map Prod.fst = (sources a w).map (srcPath a) := by
  unfold newTable
  rw [List.map_map]
  rfl

theorem newTable_nodup (a : Args) (t : Tools) (w : Files) (h : Listing w.src) :
    ((newTable a t w).map Prod.fst).Nodup := by
  rw [newTable_keys]
  exact ((srcPaths_nodup a w.src h).sublist
    ((List.filter_sublist w.src).map (srcPath a)))

/-! ## A run that returns 0 -/

theorem compilePhase_ok (a : Args) (t : Tools) (w : Files) (st : State) (hl : Listing w.src)
    (h : compilePhase a t w = (st, true)) :
    st.newInfo = newTable a t w ∧
    st.calls = (compiled a w).map (fun e => compileCall a e true) ∧
    st.out = outAfterCompile a t w ∧
    st.lib = w.lib ∧ st.libUpdated = false ∧
    (∀ e ∈ compiled a w,
      t.cc (srcPath a e) (objFile a (srcPath a e)) a.includeDir = some (ccTime a t e)) := by
  unfold compilePhase at h
  rcases hf : forEach (compileEntry a t (loadCache w.cache)) w.src (initState w) with ⟨s1, b⟩
  rw [hf] at h
  cases b with
  | false => simp at h
  | true =>
    simp only [Prod.mk.injEq, and_true] at h
    obtain ⟨i1, i2, i3, i4, i5, _, _, i8⟩ := compileLoop_ok a t _ w.src (initState w) s1 hl hf
    simp only [initState, List.nil_append] at i1 i2 i3 i4 i5 i8
    have hn : s1.newInfo = newTable a t w := by
      rw [i1]
      have := assignAll_fresh (newTable a t w) [] (by simpa using newTable_nodup a t w hl)
      simpa [newTable, sources] using this
    have hfields : st.newInfo = s1.newInfo ∧ st.calls = s1.calls ∧ st.out = s1.out ∧
        st.lib = s1.lib ∧ st.libUpdated = s1.libUpdated := by
      rw [← h]
      split <;> simp
    obtain ⟨f1, f2, f3, f4, f5⟩ := hfields
    refine ⟨f1.trans hn, f2.trans i2, f3.trans i3, f4.trans i4, f5.trans i5, ?_⟩
    intro e he
    exact i8 e (List.mem_filter.1 he).1 (List.mem_filter.1 he).2

/-- The form of a run that returns 0, in a source directory with distinct file
names: its calls, the files it leaves, and the success of every call. -/
theorem run_ok (a : Args) (t : Tools) (w : Files) (hl : Listing w.src)
    (hok : (run a t w).exitCode = 0) :
    (run a t w).calls =
      (compiled a w).map (fun e => compileCall a e true) ++
      (archived a t w).map (fun e => archiveCall a e true) ++
      (if (libAfter w.lib ((archived a t w).map (outPath a))).isSome = true then []
       else [Call.archiveAll (libPath a) (a.outputDir ++ globO) true]) ∧
    (run a t w).files.cache = some (saveText (t.order (newTable a t w))) ∧
    (run a t w).files.out = (outAfterCompile a t w).filter
      (fun x => !(archived a t w).any (fun e => e.1 == x.1)) ∧
    (run a t w).files.lib.isSome = true ∧
    (∀ o, (o ∈ (archived a t w).map (outPath a) ∨ ∃ ms, w.lib = some ms ∧ o ∈ ms) →
      ∃ ms, (run a t w).files.lib = some ms ∧ o ∈ ms) ∧
    (∀ e ∈ compiled a w,
      t.cc (srcPath a e) (objFile a (srcPath a e)) a.includeDir = some (ccTime a t e)) ∧
    (∀ e ∈ archived a t w, t.ar (libPath a) (outPath a e) = true) := by
  unfold run at hok ⊢
  rcases hc : compilePhase a t w with ⟨st1, b1⟩
  cases b1 with
  | false => rw [hc] at hok; simp [aborted] at hok
  | true =>
    obtain ⟨c1, c2, c3, c4, _, c6⟩ := compilePhase_ok a t w st1 hl hc
    simp only [hc] at hok ⊢
    rcases ha : archiveLoop a t (loadCache w.cache) st1 with ⟨st2, b2⟩
    cases b2 with
    | false => rw [ha] at hok; simp [aborted] at hok
    | true =>
      unfold archiveLoop at ha
      obtain ⟨a1, a2, a3, a4, _, _, a7⟩ := archiveLoop_ok a t _ _ (t.scan st1.out) st1 st2 ha
      rw [c1, c3] at a1 a2 a3 a7
      rw [c2] at a1
      rw [c4] at a3
      rw [c1] at a4
      have harch : (t.scan (outAfterCompile a t w)).filter
          (toArchive a t (loadCache w.cache) (newTable a t w)) = archived a t w := rfl
      rw [harch] at a1 a2 a3
      simp only [archiveLoop, ha] at hok ⊢
      have a7b : ∀ e ∈ archived a t w, t.ar (libPath a) (outPath a e) = true :=
        fun e he => a7 e (List.mem_filter.1 he).1 (List.mem_filter.1 he).2
      cases hlib : st2.lib with
      | some ms =>
        have hcl : createLib a t st2 = (st2, true) := by simp [createLib, hlib]
        rw [hcl]
        simp only []
        have hs : (libAfter w.lib ((archived a t w).map (outPath a))).isSome = true := by
          rw [← a3, hlib]; rfl
        refine ⟨by rw [a1, hs]; simp, by rw [a4], a2, by rw [hlib]; rfl, ?_, c6, a7b⟩
        intro o ho
        rw [a3]
        exact libAfter_mem _ _ o ho
      | none =>
        have hs : ¬ (libAfter w.lib ((archived a t w).map (outPath a))).isSome = true := by
          rw [← a3, hlib]; simp
        have hnil : (archived a t w).map (outPath a) = [] := by
          by_contra hne
          exact hs (libAfter_isSome _ _ (Or.inl hne))
        have hwl : w.lib = none := by
          cases hw : w.lib with
          | none => rfl
          | some ms =>
            exfalso
            apply hs
            exact libAfter_isSome _ _ (Or.inr (by rw [hw]; rfl))
        by_cases hall : t.arAll (libPath a) (a.outputDir ++ globO) = true
        · simp only [createLib, hlib, hall, if_true]
          refine ⟨by rw [a1, if_neg hs], by rw [a4], a2, rfl, ?_, c6, a7b⟩
          intro o ho
          rcases ho with ho | ⟨ms, hms, _⟩
          · rw [hnil] at ho; cases ho
          · rw [hwl] at hms; cases hms
        · simp [createLib, hlib, hall, aborted] at hok

/-! ## Which calls a run that returns 0 has made -/

theorem listing_entry_eq (l : List (Str × Nat)) (h : Listing l) (x y : Str × Nat)
    (hx : x ∈ l) (hy : y ∈ l) (he : x.1 = y.1) : x = y :=
  List.inj_on_of_nodup_map h.1 hx hy he

theorem compileCall_mem_iff (a : Args) (t : Tools) (w : Files) (hl : Listing w.src)
    (hok : (run a t w).exitCode = 0) (e : Str × Nat) (he : e ∈ w.src) :
    compileCall a e true ∈ (run a t w).calls ↔
      toCompile a (loadCache w.cache) w.out e = true := by
  rw [(run_ok a t w hl hok).1]
  constructor
  · intro h
    rcases List.mem_append.1 h with h | h
    · rcases List.mem_append.1 h with h | h
      · obtain ⟨x, hx, heq⟩ := List.mem_map.1 h
        have hx2 := List.mem_filter.1 hx
        have hp : srcPath a x = srcPath a e := by
          simp only [compileCall, Call.compile.injEq] at heq
          exact heq.1
        have hxe : x = e := listing_entry_eq w.src hl x e hx2.1 he
          (srcPath_inj a x e (hl.2 x hx2.1) (hl.2 e he) hp)
        rw [← hxe]; exact hx2.2
      · obtain ⟨x, _, heq⟩ := List.mem_map.1 h
        simp [archiveCall, compileCall] at heq
    · split at h
      · cases h
      · simp [compileCall] at h
  · intro h
    apply List.mem_append_left
    apply List.mem_append_left
    exact List.mem_map.2 ⟨e, List.mem_filter.2 ⟨he, h⟩, rfl⟩

theorem newRecord_mem (a : Args) (t : Tools) (w : Files) (e : Str × Nat) (he : e ∈ w.src)
    (hel : eligible (srcPath a e) = true) :
    newRecord a t (loadCache w.cache) w.out e ∈ newTable a t w :=
  List.mem_map.2 ⟨e, List.mem_filter.2 ⟨he, by simpa using hel⟩, rfl⟩

/-! ## Fresh objects reach the archive -/

theorem mem_names_writeAll (ws : List (Str × Nat)) : ∀ (d : List (Str × Nat)) (x : Str),
    x ∈ (writeAll d ws).map Prod.fst ↔ x ∈ d.map Prod.fst ∨ x ∈ ws.map Prod.fst := by
  induction ws with
  | nil => intro d x; simp [writeAll]
  | cons y ys ih =>
    intro d x
    have e : writeAll d (y :: ys) = writeAll (writeFile d y.1 y.2) ys := rfl
    rw [e, ih, mem_names_writeFile]
    simp only [List.map_cons, List.mem_cons]
    tauto

theorem fresh_entry_archived (a : Args) (t : Tools) (w : Files)
    (horder : ∀ m, (t.order m).Perm m) (e : Str × Nat) (he : e ∈ compiled a w)
    (hfresh : find (loadCache w.cache) (srcPath a e) = none ∨
      ∃ r, find (loadCache w.cache) (srcPath a e) = some r ∧ r.objTime ≠ ccTime a t e) :
    ∃ x ∈ archived a t w,
      outPath a x = objFile a (srcPath a e) ∧ x.1 = objFileName (srcPath a e) := by
  have he2 := List.mem_filter.1 he
  have htc : eligible (srcPath a e) = true ∧
      needsCompile (loadCache w.cache) (srcPath a e) e.2
        (marker w.out (objFileName (srcPath a e))).isSome = true := by
    simpa [toCompile] using he2.2
  have hname : objFileName (srcPath a e) ∈ (outAfterCompile a t w).map Prod.fst := by
    unfold outAfterCompile
    rw [mem_names_writeAll]
    right
    rw [List.map_map]
    exact List.mem_map.2 ⟨e, he, rfl⟩
  obtain ⟨x, hx, hxn⟩ := List.mem_map.1 hname
  have hpath : outPath a x = objFile a (srcPath a e) := by
    unfold outPath objFile
    rw [hxn]
  refine ⟨x, List.mem_filter.2 ⟨(t.scan_perm _).mem_iff.2 hx, ?_⟩, hpath, hxn⟩
  unfold toArchive
  rw [hpath]
  have hext : extension (objFile a (srcPath a e)) = dotO :=
    extension_objPath a.outputDir (srcPath a e) htc.1
  rw [Bool.and_eq_true]
  refine ⟨by simp [hext], ?_⟩
  unfold addToLib
  rw [List.any_eq_true]
  refine ⟨newRecord a t (loadCache w.cache) w.out e,
    (horder _).mem_iff.2 (newRecord_mem a t w e he2.1 htc.1), ?_⟩
  have h1 : (newRecord a t (loadCache w.cache) w.out e).1 = srcPath a e := rfl
  have h2 : (newRecord a t (loadCache w.cache) w.out e).2.objTime = ccTime a t e := by
    simp [newRecord, htc.2]
  rw [h1, h2, Bool.and_eq_true]
  refine ⟨by simp, ?_⟩
  rcases hfresh with hf | ⟨r, hf, hne⟩
  · rw [hf]
  · rw [hf]; simpa using hne

theorem archived_not_left (a : Args) (t : Tools) (w : Files) (hl : Listing w.src)
    (hok : (run a t w).exitCode = 0) (x : Str × Nat) (hx : x ∈ archived a t w) :
    marker (run a t w).files.out x.1 = none := by
  rw [marker_eq_none_iff, (run_ok a t w hl hok).2.2.1]
  intro hm
  obtain ⟨y, hy, hyn⟩ := List.mem_map.1 hm
  have hy2 := (List.mem_filter.1 hy).2
  have : (archived a t w).any (fun e => e.1 == y.1) = true :=
    List.any_eq_true.2 ⟨x, hx, by simp [hyn]⟩
  rw [this] at hy2
  cases hy2

theorem archiveCall_mem (a : Args) (t : Tools) (w : Files) (hl : Listing w.src)
    (hok : (run a t w).exitCode = 0) (x : Str × Nat) (hx : x ∈ archived a t w) :
    archiveCall a x true ∈ (run a t w).calls := by
  rw [(run_ok a t w hl hok).1]
  apply List.mem_append_left
  apply List.mem_append_right
  exact List.mem_map.2 ⟨x, hx, rfl⟩

theorem compile_call_origin (a : Args) (t : Tools) (w : Files) (hl : Listing w.src)
    (hok : (run a t w).exitCode = 0) (p obj inc : Str) (ok : Bool)
    (hc : Call.compile p obj inc ok ∈ (run a t w).calls) :
    ∃ e ∈ compiled a w, p = srcPath a e ∧ obj = objFile a (srcPath a e) ∧
      inc = a.includeDir ∧ ok = true := by
  rw [(run_ok a t w hl hok).1] at hc
  rcases List.mem_append.1 hc with h | h
  · rcases List.mem_append.1 h with h | h
    · obtain ⟨x, hx, heq⟩ := List.mem_map.1 h
      simp only [compileCall, Call.compile.injEq] at heq
      exact ⟨x, hx, heq.1.symm, heq.2.1.symm, heq.2.2.1.symm, heq.2.2.2.symm⟩
    · obtain ⟨x, _, heq⟩ := List.mem_map.1 h
      simp [archiveCall] at heq
  · split at h
    · cases h
    · simp at h

/-! ## Tools that never fail -/

theorem run_exit_zero (a : Args) (t : Tools) (w : Files)
    (hcc : ∀ s o i, (t.cc s o i).isSome = true) (har : ∀ l o, t.ar l o = true)
    (hall : ∀ l p, t.arAll l p = true) : (run a t w).exitCode = 0 := by
  have h1 : (forEach (compileEntry a t (loadCache w.cache)) w.src (initState w)).2 = true := by
    apply forEach_inv (compileEntry a t (loadCache w.cache)) (fun _ b => b = true)
    · intro s x _
      rcases compileEntry_cases a t (loadCache w.cache) s x with ⟨_, h, _⟩ | ⟨_, ok, h, _, h3⟩
      · exact h
      · rw [h, ← h3]; exact hcc _ _ _
    · rfl
  have h2 : ∀ st, (archiveLoop a t (loadCache w.cache) st).2 = true := by
    intro st
    apply forEach_inv (archiveEntry a t (loadCache w.cache) st.newInfo) (fun _ b => b = true)
    · intro s x _
      rcases archiveEntry_cases a t (loadCache w.cache) st.newInfo s x with
        ⟨_, h⟩ | ⟨_, _, h⟩ | ⟨_, h, _⟩
      · rw [h]
      · rw [h]
      · rw [har] at h; cases h
    · rfl
  have h3 : ∀ st, (createLib a t st).2 = true := by
    intro st
    unfold createLib
    cases st.lib with
    | some ms => rfl
    | none => simp [hall]
  unfold run compilePhase
  rcases hf : forEach (compileEntry a t (loadCache w.cache)) w.src (initState w) with ⟨s1, b1⟩
  rw [hf] at h1
  simp only [] at h1
  subst h1
  simp only []
  generalize (if s1.anyCompiled = true then s1
    else { s1 with msgs := s1.msgs ++ [Msg.noChanges] }) = s1b
  rcases ha : archiveLoop a t (loadCache w.cache) s1b with ⟨s2, b2⟩
  have h2b := h2 s1b
  rw [ha] at h2b
  simp only [] at h2b
  subst h2b
  simp only []
  rcases hc : createLib a t s2 with ⟨s3, b3⟩
  have h3b := h3 s2
  rw [hc] at h3b
  simp only [] at h3b
  subst h3b
  rfl

/-! ## The calls of any run, phase by phase -/

theorem compileLoop_calls (a : Args) (t : Tools) (L : InfoMap) (xs : List (Str × Nat))
    (s : State) :
    ∃ cs, (forEach (compileEntry a t L) xs s).1.calls = s.calls ++ cs ∧
      ∀ c ∈ cs, ∃ x ∈ xs, ∃ ok, c = compileCall a x ok := by
  apply forEach_calls (compileEntry a t L) State.calls (fun x c => ∃ ok, c = compileCall a x ok)
  intro s x
  rcases compileEntry_cases a t L s x with ⟨_, _, h, _⟩ | ⟨_, ok, _, h, _⟩
  · exact ⟨[], by rw [h]; simp, by simp⟩
  · exact ⟨[compileCall a x ok], h, fun c hc => ⟨ok, List.mem_singleton.1 hc⟩⟩

theorem archiveLoop_calls (a : Args) (t : Tools) (L N : InfoMap) (xs : List (Str × Nat))
    (s : State) :
    ∃ cs, (forEach (archiveEntry a t L N) xs s).1.calls = s.calls ++ cs ∧
      ∀ c ∈ cs, ∃ x ∈ xs, ∃ ok, c = archiveCall a x ok := by
  apply forEach_calls (archiveEntry a t L N) State.calls
    (fun x c => ∃ ok, c = archiveCall a x ok)
  intro s x
  rcases archiveEntry_cases a t L N s x with ⟨_, h⟩ | ⟨_, _, h⟩ | ⟨_, _, h⟩
  · exact ⟨[], by rw [h]; simp, by simp⟩
  · exact ⟨[archiveCall a x true], by rw [h], fun c hc => ⟨true, List.mem_singleton.1 hc⟩⟩
  · exact ⟨[archiveCall a x false], by rw [h], fun c hc => ⟨false, List.mem_singleton.1 hc⟩⟩

theorem createLib_calls (a : Args) (t : Tools) (s : State) :
    ∃ cs, (createLib a t s).1.calls = s.calls ++ cs ∧
      (∀ c ∈ cs, c.isCompile = false ∧ c.isArchive = false) ∧
      (createLib a t s).1.out = s.out := by
  unfold createLib
  cases s.lib with
  | some ms => exact ⟨[], by simp, by simp, rfl⟩
  | none =>
    simp only []
    split
    · exact ⟨_, rfl, by simp [Call.isCompile, Call.isArchive], rfl⟩
    · exact ⟨_, rfl, by simp [Call.isCompile, Call.isArchive], rfl⟩

theorem compilePhase_calls (a : Args) (t : Tools) (w : Files) :
    (compilePhase a t w).1.calls
      = (forEach (compileEntry a t (loadCache w.cache)) w.src (initState w)).1.calls ∧
    (compilePhase a t w).1.out
      = (forEach (compileEntry a t (loadCache w.cache)) w.src (initState w)).1.out ∧
    (compilePhase a t w).1.newInfo
      = (forEach (compileEntry a t (loadCache w.cache)) w.src (initState w)).1.newInfo ∧
    (compilePhase a t w).2
      = (forEach (compileEntry a t (loadCache w.cache)) w.src (initState w)).2 := by
  unfold compilePhase
  rcases forEach (compileEntry a t (loadCache w.cache)) w.src (initState w) with ⟨s, b⟩
  cases b with
  | false => exact ⟨rfl, rfl, rfl, rfl⟩
  | true =>
    simp only []
    split <;> simp

/-- The calls of the compiler in a run are the calls of its compile loop. -/
theorem run_calls_compile (a : Args) (t : Tools) (w : Files) :
    ∃ rest, (run a t w).calls
        = (forEach (compileEntry a t (loadCache w.cache)) w.src (initState w)).1.calls ++ rest ∧
      ∀ c ∈ rest, c.isCompile = false := by
  obtain ⟨hc, _, _, _⟩ := compilePhase_calls a t w
  rw [← hc]
  unfold run
  rcases hcp : compilePhase a t w with ⟨st1, b1⟩
  cases b1 with
  | false => exact ⟨[], by simp [aborted], by simp⟩
  | true =>
    simp only []
    obtain ⟨cs2, h2, o2⟩ :=
      archiveLoop_calls a t (loadCache w.cache) st1.newInfo (t.scan st1.out) st1
    have h2b : (archiveLoop a t (loadCache w.cache) st1).1.calls = st1.calls ++ cs2 := h2
    have o2b : ∀ c ∈ cs2, c.isCompile = false := by
      intro c hc
      obtain ⟨x, _, ok, rfl⟩ := o2 c hc
      rfl
    rcases hal : archiveLoop a t (loadCache w.cache) st1 with ⟨st2, b2⟩
    rw [hal] at h2b
    simp only [] at h2b
    cases b2 with
    | false => exact ⟨cs2, h2b, o2b⟩
    | true =>
      simp only []
      obtain ⟨cs3, h3, o3, _⟩ := createLib_calls a t st2
      rcases hcl : createLib a t st2 with ⟨st3, b3⟩
      rw [hcl] at h3
      have hall : st3.calls = st1.calls ++ (cs2 ++ cs3) := by
        simp only [] at h3
        rw [h3, h2b, List.append_assoc]
      have oall : ∀ c ∈ cs2 ++ cs3, c.isCompile = false := by
        intro c hc
        rcases List.mem_append.1 hc with hc | hc
        · exact o2b c hc
        · exact (o3 c hc).1
      cases b3 with
      | false => exact ⟨cs2 ++ cs3, hall, oall⟩
      | true => exact ⟨cs2 ++ cs3, hall, oall⟩

/-- After a compile phase that does not fail, the calls of the archiver for
one object and the output directory of a run are those of its archive loop. -/
theorem run_calls_archive (a : Args) (t : Tools) (w : Files) (st1 : State)
    (hcp : compilePhase a t w = (st1, true)) :
    ∃ rest, (run a t w).calls = (archiveLoop a t (loadCache w.cache) st1).1.calls ++ rest ∧
      (∀ c ∈ rest, c.isArchive = false) ∧
      (run a t w).files.out = (archiveLoop a t (loadCache w.cache) st1).1.out := by
  unfold run
  rw [hcp]
  simp only []
  rcases hal : archiveLoop a t (loadCache w.cache) st1 with ⟨st2, b2⟩
  cases b2 with
  | false => exact ⟨[], by simp [aborted], by simp, rfl⟩
  | true =>
    simp only []
    obtain ⟨cs3, h3, o3, h4⟩ := createLib_calls a t st2
    rcases hcl : createLib a t st2 with ⟨st3, b3⟩
    rw [hcl] at h3 h4
    simp only [] at h3 h4
    cases b3 with
    | false => exact ⟨cs3, h3, fun c hc => (o3 c hc).2, h4⟩
    | true => exact ⟨cs3, h3, fun c hc => (o3 c hc).2, h4⟩

/-! ## What a loop body leaves untouched -/

theorem compileEntry_marker (a : Args) (t : Tools) (L : InfoMap) (s : State) (x : Str × Nat)
    (n : Str) (h : eligible (srcPath a x) = true → objFileName (srcPath a x) ≠ n) :
    marker (compileEntry a t L s x).1.out n = marker s.out n := by
  by_cases h1 : eligible (srcPath a x) = true
  · by_cases h2 : needsCompile L (srcPath a x) x.2
        (marker s.out (objFileName (srcPath a x))).isSome = true
    · cases h3 : t.cc (srcPath a x) (objFile a (srcPath a x)) a.includeDir with
      | none => rw [compileEntry_fail a t L s x h1 h2 h3]
      | some tm =>
        rw [compileEntry_ok a t L s x h1 h2 tm h3]
        exact marker_writeFile_other _ _ _ _ (h h1)
    · rw [compileEntry_keep a t L s x h1 (Bool.eq_false_iff.2 h2)]
  · rw [compileEntry_skip a t L s x (Bool.eq_false_iff.2 h1)]

theorem compileEntry_listing (a : Args) (t : Tools) (L : InfoMap) (s : State) (x : Str × Nat)
    (h : Listing s.out) : Listing (compileEntry a t L s x).1.out := by
  by_cases h1 : eligible (srcPath a x) = true
  · by_cases h2 : needsCompile L (srcPath a x) x.2
        (marker s.out (objFileName (srcPath a x))).isSome = true
    · cases h3 : t.cc (srcPath a x) (objFile a (srcPath a x)) a.includeDir with
      | none => rw [compileEntry_fail a t L s x h1 h2 h3]; exact h
      | some tm =>
        rw [compileEntry_ok a t L s x h1 h2 tm h3]
        apply listing_writeFile _ _ _ h
        intro hm
        rcases List.mem_append.1 hm with hm | hm
        · exact sep_not_mem_stem _ hm
        · revert hm; decide
    · rw [compileEntry_keep a t L s x h1 (Bool.eq_false_iff.2 h2)]; exact h
  · rw [compileEntry_skip a t L s x (Bool.eq_false_iff.2 h1)]; exact h

theorem compilePhase_listing (a : Args) (t : Tools) (w : Files) (h : Listing w.out) :
    Listing (compilePhase a t w).1.out := by
  rw [(compilePhase_calls a t w).2.1]
  exact forEach_inv (compileEntry a t (loadCache w.cache)) (fun s _ => Listing s.out)
    (fun s x hs => compileEntry_listing a t _ s x hs) w.src (initState w) h

theorem archiveEntry_marker (a : Args) (t : Tools) (L N : InfoMap) (s : State) (x : Str × Nat)
    (n : Str) (h : x.1 ≠ n) :
    marker (archiveEntry a t L N s x).1.out n = marker s.out n := by
  rcases archiveEntry_cases a t L N s x with ⟨_, h2⟩ | ⟨_, _, h2⟩ | ⟨_, _, h2⟩
  · rw [h2]
  · rw [h2]
    simp only []
    rw [marker_removeFile, if_neg (fun e => h e.symm)]
  · rw [h2]

theorem needsCompile_iff (L : InfoMap) (p : Str) (n : Nat) (b : Bool) :
    needsCompile L p n b = true ↔
      (find L p = none ∨ (∃ r, find L p = some r ∧ r.cppSize ≠ n) ∨ b = false) := by
  unfold needsCompile
  cases h : find L p with
  | none => simp
  | some r => cases b <;> simp

theorem addToLib_iff (a : Args) (L N : InfoMap) (p : Str) :
    addToLib a L N p = true ↔
      ∃ ci ∈ N, objFile a ci.1 = p ∧
        (find L ci.1 = none ∨ ∃ r, find L ci.1 = some r ∧ r.objTime ≠ ci.2.objTime) := by
  unfold addToLib
  rw [List.any_eq_true]
  constructor
  · rintro ⟨ci, hci, h⟩
    rw [Bool.and_eq_true] at h
    refine ⟨ci, hci, by simpa using h.1, ?_⟩
    cases hf : find L ci.1 with
    | none => exact Or.inl rfl
    | some r =>
      right
      refine ⟨r, rfl, ?_⟩
      have h2 := h.2
      rw [hf] at h2
      simpa using h2
  · rintro ⟨ci, hci, h1, h2⟩
    refine ⟨ci, hci, ?_⟩
    rw [Bool.and_eq_true]
    refine ⟨by simpa using h1, ?_⟩
    rcases h2 with h2 | ⟨r, h2, h3⟩
    · rw [h2]
    · rw [h2]; simpa using h3

theorem marker_of_mem (d : List (Str × Nat)) (e : Str × Nat) (h : e ∈ d) :
    marker d e.1 ≠ none := by
  rw [Ne, marker_eq_none_iff]
  intro hn
  exact hn (List.mem_map_of_mem Prod.fst h)

/-! ## One entry in the middle of a directory -/

theorem listing_split (pre post : List (Str × Nat)) (e : Str × Nat)
    (h : Listing (pre ++ e :: post)) :
    '/' ∉ e.1 ∧ ∀ x, x ∈ pre ∨ x ∈ post → x.1 ≠ e.1 ∧ '/' ∉ x.1 := by
  obtain ⟨h1, h2⟩ := h
  rw [List.map_append, List.map_cons, List.nodup_middle, List.nodup_cons] at h1
  refine ⟨h2 e (by simp), ?_⟩
  intro x hx
  constructor
  · intro heq
    apply h1.1
    rw [← heq, List.mem_append]
    rcases hx with hx | hx
    · exact Or.inl (List.mem_map_of_mem Prod.fst hx)
    · exact Or.inr (List.mem_map_of_mem Prod.fst hx)
  · apply h2 x
    rcases hx with hx | hx
    · exact List.mem_append_left _ hx
    · exact List.mem_append_right _ (List.mem_cons_of_mem e hx)

theorem forEach_middle {σ α : Type} (step : σ → α → σ × Bool) (pre post : List α) (e : α)
    (s s1 : σ) (h : forEach step pre s = (s1, true)) :
    forEach step (pre ++ e :: post) s =
      if (step s1 e).2 = true then forEach step post (step s1 e).1 else ((step s1 e).1, false) := by
  rw [forEach_append, h]
  simp only [forEach]
  rcases step s1 e with ⟨s2, b⟩
  cases b <;> rfl

/-! ## A failing compilation ends the run -/

theorem compile_failure_stops (a : Args) (t : Tools) (w : Files)
    (hshape : FailedLast (run a t w).calls)
    (h : ∃ c ∈ (run a t w).calls, c.isCompile = true ∧ c.ok = false) :
    ∀ c ∈ (run a t w).calls, c.isCompile = true := by
  obtain ⟨pre, c1, hcalls, _, hpre⟩ := hshape
  obtain ⟨c, hc, hcomp, hfail⟩ := h
  have hc1 : c1.isCompile = true := by
    rw [hcalls] at hc
    rcases List.mem_append.1 hc with hc | hc
    · have := hpre c hc
      rw [hfail] at this
      cases this
    · rw [← List.mem_singleton.1 hc]; exact hcomp
  obtain ⟨rest, hr, orest⟩ := run_calls_compile a t w
  obtain ⟨cs, h0, o0⟩ := compileLoop_calls a t (loadCache w.cache) w.src (initState w)
  rw [show (initState w).calls = [] from rfl, List.nil_append] at h0
  have hrest : rest = [] := by
    rcases List.eq_nil_or_concat rest with hnil | ⟨r, last, hlast⟩
    · exact hnil
    · exfalso
      rw [List.concat_eq_append] at hlast
      rw [hcalls, hlast, ← List.append_assoc] at hr
      have := List.append_inj_right' hr rfl
      simp only [List.cons.injEq, and_true] at this
      have hl := orest last (by rw [hlast]; simp)
      rw [← this, hc1] at hl
      cases hl
  intro x hx
  rw [hr, hrest, List.append_nil, h0] at hx
  obtain ⟨y, _, ok, rfl⟩ := o0 x hx
  rfl

/-! ## What the load loop keeps -/

theorem find_assign_other (m : InfoMap) (k k2 : Str) (v : FileInfo) (h : k ≠ k2) :
    find (assign m k v) k2 = find m k2 := by
  induction m with
  | nil => simp [assign, find, h]
  | cons x xs ih =>
    obtain ⟨k1, v1⟩ := x
    by_cases h1 : k1 = k
    · subst h1; simp [assign, find, h]
    · by_cases h2 : k1 = k2
      · subst h2; simp [assign, find, h1]
      · simp [assign, find, h1, h2, ih]

theorem assign_keeps (m : InfoMap) (k k2 : Str) (v : FileInfo)
    (h : (find m k2).isSome = true) : (find (assign m k v) k2).isSome = true := by
  by_cases e : k = k2
  · subst e; rw [find_assign_same]; rfl
  · rw [find_assign_other m k k2 v e]; exact h

theorem loadLoop_keeps (fuel : Nat) : ∀ (s : Str) (m : InfoMap) (k : Str),
    (find m k).isSome = true → (find (loadLoop fuel s m) k).isSome = true := by
  induction fuel with
  | zero => intro s m k h; exact h
  | succ f ih =>
    intro s m k h
    simp only [loadLoop]
    cases hr : readRecord s with
    | none => exact h
    | some x =>
      obtain ⟨⟨file, info⟩, rest⟩ := x
      exact ih rest _ k (assign_keeps m file k info h)

theorem assignAll_keeps (rs : List (Str × FileInfo)) : ∀ (m : InfoMap) (k : Str),
    (find m k).isSome = true → (find (assignAll m rs) k).isSome = true := by
  induction rs with
  | nil => intro m k h; exact h
  | cons r rs ih =>
    intro m k h
    have e : assignAll m (r :: rs) = assignAll (assign m r.1 r.2) rs := rfl
    rw [e]
    exact ih _ k (assign_keeps m r.1 k r.2 h)

theorem assignAll_mem (rs : List (Str × FileInfo)) : ∀ (m : InfoMap) (r : Str × FileInfo),
    r ∈ rs → (find (assignAll m rs) r.1).isSome = true := by
  induction rs with
  | nil => intro m r h; cases h
  | cons x xs ih =>
    intro m r h
    have e : assignAll m (x :: xs) = assignAll (assign m x.1 x.2) xs := rfl
    rw [e]
    rcases List.mem_cons.1 h with h | h
    · apply assignAll_keeps
      rw [h, find_assign_same]; rfl
    · exact ih _ r h

theorem loadInfo_eq_nil_iff (s : Str) : loadInfo s = [] ↔ readRecord s = none := by
  constructor
  · intro h
    cases hr : readRecord s with
    | none => rfl
    | some x =>
      exfalso
      obtain ⟨⟨file, info⟩, rest⟩ := x
      have hl := readRecord_length s (file, info) rest hr
      obtain ⟨n, hn⟩ : ∃ n, s.length = n + 1 := ⟨s.length - 1, by omega⟩
      have hk : (find (loadInfo s) file).isSome = true := by
        unfold loadInfo
        rw [hn]
        simp only [loadLoop, hr]
        apply loadLoop_keeps
        rw [find_assign_same]; rfl
      rw [h] at hk
      cases hk
  · intro h
    exact loadLoop_stop _ s [] h

theorem loadLoop_saveText_then (rs : List (Str × FileInfo)) :
    ∀ (fuel : Nat) (tail : Str) (m : InfoMap), (saveText rs ++ tail).length ≤ fuel →
      (∀ r ∈ rs, plainRecord r) →
      loadLoop fuel (saveText rs ++ tail) m = loadLoop tail.length tail (assignAll m rs) := by
  induction rs with
  | nil =>
    intro fuel tail m hf _
    simp only [saveText, List.nil_append] at hf ⊢
    exact loadLoop_fuel fuel tail.length tail m hf (Nat.le_refl _)
  | cons r rs ih =>
    intro fuel tail m hf hr
    have hr1 : plainRecord r := hr r (List.mem_cons_self r rs)
    have hrs : ∀ x ∈ rs, plainRecord x := fun x hx => hr x (List.mem_cons_of_mem r hx)
    have e : saveText (r :: rs) ++ tail = saveLine r ++ (saveText rs ++ tail) := by
      simp [saveText]
    have hlen := saveLine_length r
    rw [e] at hf ⊢
    rw [List.length_append] at hf
    cases fuel with
    | zero => omega
    | succ f =>
      simp only [loadLoop, readRecord_saveLine r hr1]
      rw [loadLoop_newline, ih f tail _ (by omega) hrs]
      rfl

theorem loadInfo_saveText_then (rs : List (Str × FileInfo)) (tail : Str)
    (hr : ∀ r ∈ rs, plainRecord r) :
    loadInfo (saveText rs ++ tail) = loadLoop tail.length tail (assignAll [] rs) :=
  loadLoop_saveText_then rs _ tail [] (Nat.le_refl _) hr

/-- The load loop does not read line by line: a record may span two lines, and
the digits of a number end at the first character that is no digit. -/
theorem load_reads_across_lines :
    loadInfo "a.cpp 1\n2 3 4\n".toList = [("a.cpp".toList, ⟨1, 2⟩)] ∧
    loadInfo "a.cpp 1 2x\nb.cpp 3 4\n".toList = [("a.cpp".toList, ⟨1, 2⟩)] := by
  decide

theorem listing_perm (l1 l2 : List (Str × Nat)) (hp : l1.Perm l2) (h : Listing l2) :
    Listing l1 :=
  ⟨(hp.map Prod.fst).nodup_iff.2 h.1, fun e he => h.2 e (hp.mem_iff.1 he)⟩

/-! # The claims -/

/-- C10 (cache round trip). For every table with one record per key, whose keys
are non-empty and free of white space and whose sizes and markers are below
`2 ^ 64`, and for every order `rs` in which the save loop traverses it, loading
the saved text gives a table with the same records and the same answer to every
`find`; and for the table with the single key `a b.cpp`, which contains a space,
the loaded table answers `find` differently. -/
theorem cache_round_trip :
    (∀ tbl rs : InfoMap, (tbl.map Prod.fst).Nodup → (∀ r ∈ tbl, plainRecord r) →
      rs.Perm tbl →
      (loadInfo (saveText rs)).Perm tbl ∧
        ∀ k, find (loadInfo (saveText rs)) k = find tbl k) ∧
    (∃ tbl : InfoMap, (tbl.map Prod.fst).Nodup ∧ (∃ r ∈ tbl, ' ' ∈ r.1) ∧
      ∃ k, find (loadInfo (saveText tbl)) k ≠ find tbl k) := by
  constructor
  · intro tbl rs hk hr hp
    have hk2 : (rs.map Prod.fst).Nodup := (hp.map Prod.fst).nodup_iff.2 hk
    have hr2 : ∀ r ∈ rs, plainRecord r := fun r h => hr r (hp.mem_iff.1 h)
    have e : loadInfo (saveText rs) = rs := by
      have h1 := loadInfo_saveText rs [] hr2 (by decide)
      rw [List.append_nil] at h1
      rw [h1, assignAll_fresh rs [] (by simpa using hk2)]
      simp
    rw [e]
    exact ⟨hp, fun k => find_perm rs tbl hp hk k⟩
  · refine ⟨[("a b.cpp".toList, ⟨1, 2⟩)], by decide, ⟨_, List.mem_singleton.2 rfl, by decide⟩,
      "a b.cpp".toList, by decide⟩

/-- Witness of C10: the table of `src/a.cpp` and `src/b.cpp` saved in the
opposite order. -/
theorem cache_round_trip_witness :
    (loadInfo (saveText [(bCpp, ⟨50, 9⟩), (aCpp, ⟨100, 7⟩)])).Perm
        [(aCpp, ⟨100, 7⟩), (bCpp, ⟨50, 9⟩)] ∧
      ∀ k, find (loadInfo (saveText [(bCpp, ⟨50, 9⟩), (aCpp, ⟨100, 7⟩)])) k
        = find [(aCpp, ⟨100, 7⟩), (bCpp, ⟨50, 9⟩)] k :=
  cache_round_trip.1 [(aCpp, ⟨100, 7⟩), (bCpp, ⟨50, 9⟩)] [(bCpp, ⟨50, 9⟩), (aCpp, ⟨100, 7⟩)]
    (by decide) (by decide) (List.Perm.swap _ _ _)

/-- C9, as stated, fails: the second line of this cache file is malformed (its
size field is `x`, so no record can be read from it), and the loaded table is
not empty: it holds the record of the first line. -/
theorem load_keeps_records_before_malformed_line :
    readRecord "b.cpp x 3\n".toList = none ∧
    loadCache (some "a.cpp 1 2\nb.cpp x 3\n".toList) = [("a.cpp".toList, ⟨1, 2⟩)] ∧
    loadCache (some "a.cpp 1 2\nb.cpp x 3\n".toList) ≠ [] := by
  decide

/-- C4 (fail-fast). In every run in which some call of the compiler or of the
archiver (for one object or for the creation of the archive) returns a non-zero
exit status, `main` returns 1, the failing call is the last call of the run and
every call before it returned 0, and the cache file is what it was before the
run; when the failing call is a call of the compiler, every call of the run is
a call of the compiler, so the archive phase made none. -/
theorem fail_fast (a : Args) (t : Tools) (w : Files)
    (h : ∃ c ∈ (run a t w).calls, c.ok = false) :
    (run a t w).exitCode = 1 ∧
    (∃ pre c, (run a t w).calls = pre ++ [c] ∧ c.ok = false ∧ ∀ x ∈ pre, x.ok = true) ∧
    (run a t w).files.cache = w.cache ∧
    ((∃ c ∈ (run a t w).calls, c.isCompile = true ∧ c.ok = false) →
      ∀ c ∈ (run a t w).calls, c.isCompile = true) := by
  have key : (run a t w).exitCode = 1 ∧ FailedLast (run a t w).calls ∧
      (run a t w).files.cache = w.cache := by
    have h1 := compilePhase_shape a t w
    unfold run at h ⊢
    rcases hc : compilePhase a t w with ⟨st1, b1⟩
    rw [hc] at h1
    cases b1 with
    | false => exact ⟨rfl, h1, rfl⟩
    | true =>
      simp only [hc] at h ⊢
      have h2 := archiveLoop_shape a t (loadCache w.cache) st1 h1
      rcases ha : archiveLoop a t (loadCache w.cache) st1 with ⟨st2, b2⟩
      rw [ha] at h2
      cases b2 with
      | false => exact ⟨rfl, h2, rfl⟩
      | true =>
        simp only [ha] at h ⊢
        have h3 := createLib_shape a t st2 h2
        rcases hl : createLib a t st2 with ⟨st3, b3⟩
        rw [hl] at h3
        cases b3 with
        | false => exact ⟨rfl, h3, rfl⟩
        | true =>
          simp only [hl] at h ⊢
          obtain ⟨c, hmem, hfalse⟩ := h
          have := h3 c hmem
          rw [hfalse] at this
          cases this
  exact ⟨key.1, key.2.1, key.2.2, compile_failure_stops a t w key.2.1⟩

/-- Witness of C4: the compiler fails on the first source of `freshFiles`. -/
theorem fail_fast_witness :
    (run sampleArgs toolsCcFail freshFiles).exitCode = 1 ∧
    (∃ pre c, (run sampleArgs toolsCcFail freshFiles).calls = pre ++ [c] ∧ c.ok = false ∧
      ∀ x ∈ pre, x.ok = true) ∧
    (run sampleArgs toolsCcFail freshFiles).files.cache = freshFiles.cache ∧
    ((∃ c ∈ (run sampleArgs toolsCcFail freshFiles).calls, c.isCompile = true ∧ c.ok = false) →
      ∀ c ∈ (run sampleArgs toolsCcFail freshFiles).calls, c.isCompile = true) :=
  fail_fast sampleArgs toolsCcFail freshFiles
    ⟨Call.compile aCpp "out/a.o".toList "inc".toList false, by decide, rfl⟩

/-- C7 (saved cache content). After every run that returns 0, in a source
directory with distinct file names, the cache file is the saved text of records
`recs` whose paths are the paths of the eligible source files, each once; the
record of an eligible file holds its byte size, and as marker the one of the
object the compiler wrote when the file was compiled in this run, and otherwise
the marker its object file already had. -/
theorem saved_cache_content (a : Args) (t : Tools) (w : Files)
    (horder : ∀ m, (t.order m).Perm m) (hl : Listing w.src)
    (hok : (run a t w).exitCode = 0) :
    ∃ recs : List (Str × FileInfo),
      (run a t w).files.cache = some (saveText recs) ∧
      (recs.map Prod.fst).Perm ((sources a w).map (srcPath a)) ∧
      ((sources a w).map (srcPath a)).Nodup ∧
      ∀ e ∈ w.src, eligible (srcPath a e) = true →
        ∃ r, (srcPath a e, r) ∈ recs ∧ r.cppSize = e.2 ∧
          (compileCall a e true ∈ (run a t w).calls →
            t.cc (srcPath a e) (objFile a (srcPath a e)) a.includeDir = some r.objTime) ∧
          (compileCall a e true ∉ (run a t w).calls →
            marker w.out (objFileName (srcPath a e)) = some r.objTime) := by
  obtain ⟨_, r2, _, _, _, r6, _⟩ := run_ok a t w hl hok
  refine ⟨t.order (newTable a t w), r2, ?_, ?_, ?_⟩
  · rw [← newTable_keys a t w]
    exact (horder _).map Prod.fst
  · rw [← newTable_keys a t w]
    exact newTable_nodup a t w hl
  · intro e he hel
    have hmem := newRecord_mem a t w e he hel
    have hiff := compileCall_mem_iff a t w hl hok e he
    refine ⟨(newRecord a t (loadCache w.cache) w.out e).2,
      (horder _).mem_iff.2 hmem, rfl, ?_, ?_⟩
    · intro hc
      have htc := hiff.1 hc
      have hn : needsCompile (loadCache w.cache) (srcPath a e) e.2
          (marker w.out (objFileName (srcPath a e))).isSome = true := by
        simpa [toCompile, hel] using htc
      rw [r6 e (List.mem_filter.2 ⟨he, htc⟩)]
      simp [newRecord, hn]
    · intro hc
      have htc : ¬ toCompile a (loadCache w.cache) w.out e = true := fun h => hc (hiff.2 h)
      have hn : needsCompile (loadCache w.cache) (srcPath a e) e.2
          (marker w.out (objFileName (srcPath a e))).isSome = false := by
        simpa [toCompile, hel] using htc
      have hex : (marker w.out (objFileName (srcPath a e))).isSome = true := by
        unfold needsCompile at hn
        split at hn
        · cases hn
        · simp only [Bool.or_eq_false_iff, Bool.not_eq_false'] at hn
          exact hn.2
      obtain ⟨m, hm⟩ := Option.isSome_iff_exists.1 hex
      unfold newRecord
      simp only [hn, Bool.false_eq_true, if_false]
      simp [hm]

/-- Witness of C7: the first run on `freshFiles`. -/
theorem saved_cache_content_witness :
    ∃ recs : List (Str × FileInfo),
      (run sampleArgs (toolsOk 7) freshFiles).files.cache = some (saveText recs) ∧
      (recs.map Prod.fst).Perm ((sources sampleArgs freshFiles).map (srcPath sampleArgs)) ∧
      ((sources sampleArgs freshFiles).map (srcPath sampleArgs)).Nodup ∧
      ∀ e ∈ freshFiles.src, eligible (srcPath sampleArgs e) = true →
        ∃ r, (srcPath sampleArgs e, r) ∈ recs ∧ r.cppSize = e.2 ∧
          (compileCall sampleArgs e true ∈ (run sampleArgs (toolsOk 7) freshFiles).calls →
            (toolsOk 7).cc (srcPath sampleArgs e) (objFile sampleArgs (srcPath sampleArgs e))
              sampleArgs.includeDir = some r.objTime) ∧
          (compileCall sampleArgs e true ∉ (run sampleArgs (toolsOk 7) freshFiles).calls →
            marker freshFiles.out (objFileName (srcPath sampleArgs e)) = some r.objTime) :=
  saved_cache_content sampleArgs (toolsOk 7) freshFiles (fun m => List.Perm.refl m)
    (by decide) (by decide)

/-- C8, as stated, fails: the loaded cache holds a record for `src/gone.cpp`,
no entry of the source directory has that path, the run returns 0, and the
cache file it leaves holds the line of `src/a.cpp` only, so the record of
`src/gone.cpp` is gone. -/
theorem stale_record_is_pruned :
    find (loadCache staleFiles.cache) "src/gone.cpp".toList = some ⟨5, 9⟩ ∧
    (∀ e ∈ staleFiles.src, srcPath sampleArgs e ≠ "src/gone.cpp".toList) ∧
    (run sampleArgs (toolsOk 7) staleFiles).exitCode = 0 ∧
    (run sampleArgs (toolsOk 7) staleFiles).files.cache = some "src/a.cpp 100 7\n".toList ∧
    find (loadCache (run sampleArgs (toolsOk 7) staleFiles).files.cache) "src/gone.cpp".toList
      = none := by
  decide

/-- C5, as stated, fails: on `cachedFiles`, whose cache records marker 7 for
both sources and whose output directory holds no object, a run in which the
compiler stamps the fresh objects with marker 7 again returns 0, compiles both
sources, calls the archiver for neither object, and leaves both objects in the
output directory. -/
theorem fresh_object_left_unarchived :
    (run sampleArgs (toolsOk 7) cachedFiles).exitCode = 0 ∧
    (run sampleArgs (toolsOk 7) cachedFiles).calls =
      [Call.compile aCpp "out/a.o".toList "inc".toList true,
       Call.compile bCpp "out/b.o".toList "inc".toList true] ∧
    (run sampleArgs (toolsOk 7) cachedFiles).files.out
      = [("a.o".toList, 7), ("b.o".toList, 7)] := by
  decide

/-- C5, amended. In every run that returns 0, in a source directory with
distinct file names, every call of the compiler succeeded and wrote its object
with some marker `tm`; when the loaded cache has no record for the source, or
records another marker than `tm`, the object is passed to the archiver in a
successful call, is a member of the archive at the end, and is no longer an
entry of the output directory at the end. -/
theorem fresh_object_archived (a : Args) (t : Tools) (w : Files)
    (horder : ∀ m, (t.order m).Perm m) (hl : Listing w.src)
    (hok : (run a t w).exitCode = 0) (p obj inc : Str) (ok : Bool)
    (hc : Call.compile p obj inc ok ∈ (run a t w).calls) :
    ∃ tm, t.cc p obj inc = some tm ∧ ok = true ∧
      ((find (loadCache w.cache) p = none ∨
          ∃ r, find (loadCache w.cache) p = some r ∧ r.objTime ≠ tm) →
        Call.archive (libPath a) obj true ∈ (run a t w).calls ∧
        (∃ ms, (run a t w).files.lib = some ms ∧ obj ∈ ms) ∧
        marker (run a t w).files.out (objFileName p) = none) := by
  obtain ⟨e, he, hp, hobj, hinc, hokc⟩ := compile_call_origin a t w hl hok p obj inc ok hc
  obtain ⟨_, _, _, _, r5, r6, _⟩ := run_ok a t w hl hok
  subst hp hobj hinc hokc
  refine ⟨ccTime a t e, r6 e he, rfl, ?_⟩
  intro hfresh
  obtain ⟨x, hx, hxp, hxn⟩ := fresh_entry_archived a t w horder e he hfresh
  refine ⟨?_, ?_, ?_⟩
  · have := archiveCall_mem a t w hl hok x hx
    unfold archiveCall at this
    rw [hxp] at this
    exact this
  · apply r5
    left
    rw [← hxp]
    exact List.mem_map_of_mem (outPath a) hx
  · rw [← hxn]
    exact archived_not_left a t w hl hok x hx

/-- Witness of the amended C5: the compilation of `src/a.cpp` in the first run
on `freshFiles`. -/
theorem fresh_object_archived_witness :
    ∃ tm, (toolsOk 7).cc aCpp "out/a.o".toList "inc".toList = some tm ∧ true = true ∧
      ((find (loadCache freshFiles.cache) aCpp = none ∨
          ∃ r, find (loadCache freshFiles.cache) aCpp = some r ∧ r.objTime ≠ tm) →
        Call.archive (libPath sampleArgs) "out/a.o".toList true
          ∈ (run sampleArgs (toolsOk 7) freshFiles).calls ∧
        (∃ ms, (run sampleArgs (toolsOk 7) freshFiles).files.lib = some ms ∧
          "out/a.o".toList ∈ ms) ∧
        marker (run sampleArgs (toolsOk 7) freshFiles).files.out (objFileName aCpp) = none) :=
  fresh_object_archived sampleArgs (toolsOk 7) freshFiles (fun m => List.Perm.refl m)
    (by decide) (by decide) aCpp "out/a.o".toList "inc".toList true (by decide)

/-- C6 (first-run bootstrap). For every run that starts with no cache file, no
archive and an output directory without `.o` entry, in a source directory with
distinct file names and with tools that never fail: `main` returns 0; the
calls of the compiler are one successful call per eligible source, in the
order of the directory, and the eligible sources have distinct paths; the
archive exists at the end and holds the object of every eligible source, each
passed to the archiver in a successful call; the cache file holds exactly the
records of the eligible sources, each with its byte size and the marker of its
fresh object; and the output directory ends without `.o` entry. -/
theorem first_run_bootstrap (a : Args) (t : Tools) (w : Files)
    (horder : ∀ m, (t.order m).Perm m) (hl : Listing w.src)
    (hcache : w.cache = none) (_hlib : w.lib = none)
    (hno : ∀ x ∈ w.out, extension (outPath a x) ≠ dotO)
    (hcc : ∀ s o i, (t.cc s o i).isSome = true) (har : ∀ l o, t.ar l o = true)
    (hall : ∀ l p, t.arAll l p = true) :
    (run a t w).exitCode = 0 ∧
    (run a t w).calls.filter Call.isCompile
      = (sources a w).map (fun e => compileCall a e true) ∧
    ((sources a w).map (srcPath a)).Nodup ∧
    (∃ ms, (run a t w).files.lib = some ms ∧
      ∀ e ∈ sources a w, objFile a (srcPath a e) ∈ ms) ∧
    (∀ e ∈ sources a w,
      Call.archive (libPath a) (objFile a (srcPath a e)) true ∈ (run a t w).calls) ∧
    (∃ recs, (run a t w).files.cache = some (saveText recs) ∧
      recs.Perm ((sources a w).map (fun e => (srcPath a e, ⟨e.2, ccTime a t e⟩)))) ∧
    (∀ x ∈ (run a t w).files.out, extension (outPath a x) ≠ dotO) := by
  have hok := run_exit_zero a t w hcc har hall
  obtain ⟨r1, r2, r3, r4, r5, _, _⟩ := run_ok a t w hl hok
  have hL : loadCache w.cache = [] := by rw [hcache]; rfl
  have hneed : ∀ (p : Str) (n : Nat) (b : Bool), needsCompile (loadCache w.cache) p n b = true := by
    intro p n b; rw [hL]; rfl
  have hcomp : compiled a w = sources a w := by
    unfold compiled sources
    apply List.filter_congr
    intro x _
    simp [toCompile, hneed]
  have harch : ∀ e ∈ sources a w, ∃ x ∈ archived a t w,
      outPath a x = objFile a (srcPath a e) ∧ x.1 = objFileName (srcPath a e) := by
    intro e he
    apply fresh_entry_archived a t w horder e (hcomp ▸ he)
    left; rw [hL]; rfl
  refine ⟨hok, ?_, ?_, ?_, ?_, ?_, ?_⟩
  · rw [r1, hcomp, List.filter_append, List.filter_append]
    have f1 : ((sources a w).map (fun e => compileCall a e true)).filter Call.isCompile
        = (sources a w).map (fun e => compileCall a e true) := by
      rw [List.filter_eq_self]
      intro c hc
      obtain ⟨e, _, rfl⟩ := List.mem_map.1 hc
      rfl
    have f2 : ((archived a t w).map (fun e => archiveCall a e true)).filter Call.isCompile
        = [] := by
      rw [List.filter_eq_nil_iff]
      intro c hc
      obtain ⟨e, _, rfl⟩ := List.mem_map.1 hc
      simp [archiveCall, Call.isCompile]
    rw [f1, f2]
    split <;> simp [Call.isCompile]
  · rw [← newTable_keys a t w]
    exact newTable_nodup a t w hl
  · obtain ⟨ms, hms⟩ := Option.isSome_iff_exists.1 r4
    refine ⟨ms, hms, ?_⟩
    intro e he
    obtain ⟨x, hx, hxp, _⟩ := harch e he
    obtain ⟨ms2, h1, h2⟩ := r5 (outPath a x) (Or.inl (List.mem_map_of_mem (outPath a) hx))
    rw [hms] at h1
    cases h1
    rw [← hxp]; exact h2
  · intro e he
    obtain ⟨x, hx, hxp, _⟩ := harch e he
    have := archiveCall_mem a t w hl hok x hx
    unfold archiveCall at this
    rw [hxp] at this
    exact this
  · refine ⟨t.order (newTable a t w), r2, ?_⟩
    have : newTable a t w = (sources a w).map (fun e => (srcPath a e, ⟨e.2, ccTime a t e⟩)) := by
      unfold newTable
      apply List.map_congr_left
      intro e _
      simp [newRecord, hneed]
    rw [← this]
    exact horder _
  · intro y hy hext
    rw [r3] at hy
    obtain ⟨hy1, hy2⟩ := List.mem_filter.1 hy
    have hname : y.1 ∈ (outAfterCompile a t w).map Prod.fst := List.mem_map_of_mem Prod.fst hy1
    unfold outAfterCompile at hname
    rw [mem_names_writeAll] at hname
    rcases hname with hname | hname
    · obtain ⟨y2, hy2m, hy2n⟩ := List.mem_map.1 hname
      apply hno y2 hy2m
      unfold outPath at hext ⊢
      rw [hy2n]; exact hext
    · rw [List.map_map] at hname
      obtain ⟨e, he, hen⟩ := List.mem_map.1 hname
      obtain ⟨x, hx, _, hxn⟩ := harch e (hcomp ▸ he)
      have : (archived a t w).any (fun e => e.1 == y.1) = true :=
        List.any_eq_true.2 ⟨x, hx, by rw [hxn, ← hen]; simp⟩
      rw [this] at hy2
      cases hy2

/-- Witness of C6: `a.cpp` of 100 bytes and `b.cpp` of 50 bytes, no cache, no
archive, an empty output directory. -/
theorem first_run_bootstrap_witness :
    (run sampleArgs (toolsOk 7) freshFiles).exitCode = 0 ∧
    (run sampleArgs (toolsOk 7) freshFiles).calls.filter Call.isCompile
      = (sources sampleArgs freshFiles).map (fun e => compileCall sampleArgs e true) ∧
    ((sources sampleArgs freshFiles).map (srcPath sampleArgs)).Nodup ∧
    (∃ ms, (run sampleArgs (toolsOk 7) freshFiles).files.lib = some ms ∧
      ∀ e ∈ sources sampleArgs freshFiles, objFile sampleArgs (srcPath sampleArgs e) ∈ ms) ∧
    (∀ e ∈ sources sampleArgs freshFiles,
      Call.archive (libPath sampleArgs) (objFile sampleArgs (srcPath sampleArgs e)) true
        ∈ (run sampleArgs (toolsOk 7) freshFiles).calls) ∧
    (∃ recs, (run sampleArgs (toolsOk 7) freshFiles).files.cache = some (saveText recs) ∧
      recs.Perm ((sources sampleArgs freshFiles).map
        (fun e => (srcPath sampleArgs e, ⟨e.2, ccTime sampleArgs (toolsOk 7) e⟩)))) ∧
    (∀ x ∈ (run sampleArgs (toolsOk 7) freshFiles).files.out,
      extension (outPath sampleArgs x) ≠ dotO) :=
  first_run_bootstrap sampleArgs (toolsOk 7) freshFiles (fun m => List.Perm.refl m)
    (by decide) rfl rfl (by decide) (fun _ _ _ => rfl) (fun _ _ => rfl) (fun _ _ => rfl)

/-- C1 (compile decision). Let `e` be an eligible entry of a source directory
with distinct file names, reached by the compile loop (the loop over the
entries before it did not fail). The run calls the compiler on its path if and
only if the loaded cache has no record for the path, or the recorded size
differs from the byte size of the file, or the output directory has no entry
with the name of its object; so a file with a record, an equal size and an
existing object is not compiled, and a file whose object is missing is. -/
theorem compile_decision (a : Args) (t : Tools) (w : Files) (pre post : List (Str × Nat))
    (e : Str × Nat) (st : State) (hsrc : w.src = pre ++ e :: post) (hl : Listing w.src)
    (hreach : forEach (compileEntry a t (loadCache w.cache)) pre (initState w) = (st, true))
    (hel : eligible (srcPath a e) = true) :
    (∃ obj inc ok, Call.compile (srcPath a e) obj inc ok ∈ (run a t w).calls) ↔
      (find (loadCache w.cache) (srcPath a e) = none ∨
       (∃ r, find (loadCache w.cache) (srcPath a e) = some r ∧ r.cppSize ≠ e.2) ∨
       marker w.out (objFileName (srcPath a e)) = none) := by
  rw [hsrc] at hl
  obtain ⟨hev, hoth⟩ := listing_split pre post e hl
  have hpath : ∀ x, x ∈ pre ∨ x ∈ post → srcPath a x ≠ srcPath a e := by
    intro x hx heq
    exact (hoth x hx).1 (srcPath_inj a x e (hoth x hx).2 hev heq)
  have hmark : marker st.out (objFileName (srcPath a e))
      = marker w.out (objFileName (srcPath a e)) := by
    have := forEach_preserve (compileEntry a t (loadCache w.cache))
      (fun s => marker s.out (objFileName (srcPath a e)))
      (fun x => eligible (srcPath a x) = true →
        objFileName (srcPath a x) ≠ objFileName (srcPath a e))
      (fun s x hx => compileEntry_marker a t _ s x _ hx) pre (initState w)
      (fun x hx ex => objFileName_ne a x e (hoth x (Or.inl hx)).2 hev
        (fun h => (hoth x (Or.inl hx)).1 h.symm) ex hel)
    rw [hreach] at this
    exact this
  have hiff : toCompile a (loadCache w.cache) st.out e = true ↔
      (find (loadCache w.cache) (srcPath a e) = none ∨
       (∃ r, find (loadCache w.cache) (srcPath a e) = some r ∧ r.cppSize ≠ e.2) ∨
       marker w.out (objFileName (srcPath a e)) = none) := by
    unfold toCompile
    rw [hel, Bool.true_and, needsCompile_iff, hmark]
    cases marker w.out (objFileName (srcPath a e)) <;> simp
  obtain ⟨cs1, h1, o1⟩ := compileLoop_calls a t (loadCache w.cache) pre (initState w)
  rw [hreach] at h1
  simp only [initState, List.nil_append] at h1
  obtain ⟨rest, hr, orest⟩ := run_calls_compile a t w
  rw [hsrc, forEach_middle _ pre post e _ st hreach] at hr
  obtain ⟨cs3, h3, o3⟩ := compileLoop_calls a t (loadCache w.cache) post
    (compileEntry a t (loadCache w.cache) st e).1
  rcases compileEntry_cases a t (loadCache w.cache) st e with
    ⟨htc, hflag, hcalls, _⟩ | ⟨htc, ok, hflag, hcalls, _⟩
  · rw [hflag, if_pos rfl, h3, hcalls, h1] at hr
    constructor
    · rintro ⟨obj, inc, ok, hmem⟩
      exfalso
      rw [hr] at hmem
      rcases List.mem_append.1 hmem with hmem | hmem
      · rcases List.mem_append.1 hmem with hmem | hmem
        · obtain ⟨x, hx, ok2, heq⟩ := o1 _ hmem
          simp only [compileCall, Call.compile.injEq] at heq
          exact hpath x (Or.inl hx) heq.1.symm
        · obtain ⟨x, hx, ok2, heq⟩ := o3 _ hmem
          simp only [compileCall, Call.compile.injEq] at heq
          exact hpath x (Or.inr hx) heq.1.symm
      · have := orest _ hmem
        simp [Call.isCompile] at this
    · intro hcond
      rw [hiff.2 hcond] at htc
      cases htc
  · constructor
    · intro _
      exact hiff.1 htc
    · intro _
      refine ⟨objFile a (srcPath a e), a.includeDir, ok, ?_⟩
      have hmem : compileCall a e ok ∈ (compileEntry a t (loadCache w.cache) st e).1.calls := by
        rw [hcalls]; simp
      rw [hr]
      apply List.mem_append_left
      rw [hflag]
      cases ok with
      | true =>
        rw [if_pos rfl, h3]
        exact List.mem_append_left _ hmem
      | false =>
        rw [if_neg (by simp)]
        exact hmem

/-- Witness of C1: `src/b.cpp` in `cachedFiles`, reached after `src/a.cpp` was
compiled; its object is missing, so it is compiled although its size matches. -/
theorem compile_decision_witness :
    (∃ obj inc ok, Call.compile (srcPath sampleArgs ("b.cpp".toList, 50)) obj inc ok
        ∈ (run sampleArgs (toolsOk 7) cachedFiles).calls) ↔
      (find (loadCache cachedFiles.cache) (srcPath sampleArgs ("b.cpp".toList, 50)) = none ∨
       (∃ r, find (loadCache cachedFiles.cache) (srcPath sampleArgs ("b.cpp".toList, 50))
          = some r ∧ r.cppSize ≠ 50) ∨
       marker cachedFiles.out (objFileName (srcPath sampleArgs ("b.cpp".toList, 50))) = none) :=
  compile_decision sampleArgs (toolsOk 7) cachedFiles [("a.cpp".toList, 100)] []
    ("b.cpp".toList, 50)
    (forEach (compileEntry sampleArgs (toolsOk 7) (loadCache cachedFiles.cache))
      [("a.cpp".toList, 100)] (initState cachedFiles)).1
    rfl (by decide) (by decide) (by decide)

/-- C2 fails on the code. The first run on `freshFiles` returns 0 and leaves
`cachedFiles`: both objects are archived and removed from the output directory.
A second run on these files, with no source changed, finds no object file, so
whatever the tools do it calls the compiler on `src/a.cpp`; when the tools
succeed and stamp the fresh objects with marker 9 it makes two compiler calls
and two archiver calls, and it prints that the library was updated, not that
nothing changed or that the library is up to date. -/
theorem second_run_recompiles :
    (run sampleArgs (toolsOk 7) freshFiles).exitCode = 0 ∧
    (run sampleArgs (toolsOk 7) freshFiles).files = cachedFiles ∧
    (∀ t2 : Tools, ∃ ok,
      Call.compile aCpp "out/a.o".toList "inc".toList ok
        ∈ (run sampleArgs t2 cachedFiles).calls) ∧
    (run sampleArgs (toolsOk 9) cachedFiles).exitCode = 0 ∧
    (run sampleArgs (toolsOk 9) cachedFiles).calls =
      [Call.compile aCpp "out/a.o".toList "inc".toList true,
       Call.compile bCpp "out/b.o".toList "inc".toList true,
       Call.archive "out/libx.a".toList "out/a.o".toList true,
       Call.archive "out/libx.a".toList "out/b.o".toList true] ∧
    (run sampleArgs (toolsOk 9) cachedFiles).msgs = [Msg.updated] := by
  refine ⟨by decide, by decide, ?_, by decide, by decide, by decide⟩
  intro t2
  obtain ⟨rest, hr, _⟩ := run_calls_compile sampleArgs t2 cachedFiles
  have hm := forEach_middle (compileEntry sampleArgs t2 (loadCache cachedFiles.cache))
    [] [("b.cpp".toList, 50)] ("a.cpp".toList, 100) (initState cachedFiles)
    (initState cachedFiles) rfl
  have hsrc : cachedFiles.src = [] ++ ("a.cpp".toList, 100) :: [("b.cpp".toList, 50)] := rfl
  rw [hsrc, hm] at hr
  obtain ⟨cs3, h3, _⟩ := compileLoop_calls sampleArgs t2 (loadCache cachedFiles.cache)
    [("b.cpp".toList, 50)]
    (compileEntry sampleArgs t2 (loadCache cachedFiles.cache) (initState cachedFiles)
      ("a.cpp".toList, 100)).1
  rcases compileEntry_cases sampleArgs t2 (loadCache cachedFiles.cache)
      (initState cachedFiles) ("a.cpp".toList, 100) with
    ⟨htc, _⟩ | ⟨_, ok, hflag, hcalls, _⟩
  · have htrue : toCompile sampleArgs (loadCache cachedFiles.cache)
        (initState cachedFiles).out ("a.cpp".toList, 100) = true := by decide
    rw [htrue] at htc
    cases htc
  · refine ⟨ok, ?_⟩
    have hmem : compileCall sampleArgs ("a.cpp".toList, 100) ok
        ∈ (compileEntry sampleArgs t2 (loadCache cachedFiles.cache) (initState cachedFiles)
          ("a.cpp".toList, 100)).1.calls := by
      rw [hcalls]; simp
    have hcall : compileCall sampleArgs ("a.cpp".toList, 100) ok
        = Call.compile aCpp "out/a.o".toList "inc".toList ok := by
      cases ok <;> decide
    rw [← hcall, hr]
    apply List.mem_append_left
    rw [hflag]
    cases ok with
    | true =>
      rw [if_pos rfl, h3]
      exact List.mem_append_left _ hmem
    | false =>
      rw [if_neg (by simp)]
      exact hmem

/-- C9, amended. Loading is total: a missing cache file gives the empty table,
and on every text the load loop ends within as many iterations as the text has
characters. The text is read as a stream of extractions (a path, then two
numbers), not line by line: the loaded table is empty exactly when no record
can be extracted at the start of the text. When the text begins with the saved
lines of the records `rs`, whatever text `rest` follows them (a malformed line
included), loading stores `rs` and reads on from `rest`, and every path of `rs`
has a record in the loaded table; when no record can be extracted from `rest`,
the loaded table is what storing `rs` in order gives, which is `rs` itself when
its paths are distinct. -/
theorem load_soft_failure (rs : List (Str × FileInfo)) (rest : Str)
    (hr : ∀ r ∈ rs, plainRecord r) :
    loadCache none = [] ∧
    (∀ (s : Str) (fuel : Nat), s.length ≤ fuel → loadLoop fuel s [] = loadCache (some s)) ∧
    (∀ s : Str, loadCache (some s) = [] ↔ readRecord s = none) ∧
    loadCache (some (saveText rs ++ rest)) = loadLoop rest.length rest (assignAll [] rs) ∧
    (∀ r ∈ rs, (find (loadCache (some (saveText rs ++ rest))) r.1).isSome = true) ∧
    (readRecord rest = none → loadCache (some (saveText rs ++ rest)) = assignAll [] rs) ∧
    (readRecord rest = none → (rs.map Prod.fst).Nodup →
      loadCache (some (saveText rs ++ rest)) = rs) := by
  have e : loadCache (some (saveText rs ++ rest))
      = loadLoop rest.length rest (assignAll [] rs) := loadInfo_saveText_then rs rest hr
  refine ⟨rfl, ?_, ?_, e, ?_, ?_, ?_⟩
  · intro s fuel h
    exact loadLoop_fuel fuel s.length s [] h (Nat.le_refl _)
  · intro s
    exact loadInfo_eq_nil_iff s
  · intro r hmem
    rw [e]
    exact loadLoop_keeps _ rest _ r.1 (assignAll_mem rs [] r hmem)
  · intro hbad
    exact loadInfo_saveText rs rest hr hbad
  · intro hbad hk
    show loadInfo (saveText rs ++ rest) = rs
    rw [loadInfo_saveText rs rest hr hbad, assignAll_fresh rs [] (by simpa using hk)]
    simp

/-- Witness of the amended C9: one saved record followed by a malformed line. -/
theorem load_soft_failure_witness :
    loadCache none = [] ∧
    (∀ (s : Str) (fuel : Nat), s.length ≤ fuel → loadLoop fuel s [] = loadCache (some s)) ∧
    (∀ s : Str, loadCache (some s) = [] ↔ readRecord s = none) ∧
    loadCache (some (saveText [(aCpp, ⟨1, 2⟩)] ++ "b.cpp x 3\n".toList))
      = loadLoop "b.cpp x 3\n".toList.length "b.cpp x 3\n".toList
          (assignAll [] [(aCpp, ⟨1, 2⟩)]) ∧
    (∀ r ∈ [(aCpp, (⟨1, 2⟩ : FileInfo))],
      (find (loadCache (some (saveText [(aCpp, ⟨1, 2⟩)] ++ "b.cpp x 3\n".toList))) r.1).isSome
        = true) ∧
    (readRecord "b.cpp x 3\n".toList = none →
      loadCache (some (saveText [(aCpp, ⟨1, 2⟩)] ++ "b.cpp x 3\n".toList))
        = assignAll [] [(aCpp, ⟨1, 2⟩)]) ∧
    (readRecord "b.cpp x 3\n".toList = none →
      ([(aCpp, (⟨1, 2⟩ : FileInfo))].map Prod.fst).Nodup →
      loadCache (some (saveText [(aCpp, ⟨1, 2⟩)] ++ "b.cpp x 3\n".toList))
        = [(aCpp, ⟨1, 2⟩)]) :=
  load_soft_failure [(aCpp, ⟨1, 2⟩)] "b.cpp x 3\n".toList (by decide)

/-- C8, amended. After every run that returns 0, in a source directory with
distinct file names, the cache file is the saved text of records `recs` that
are, in some order, exactly the records of the eligible entries of the source
directory, one each; so a record of the loaded cache whose path `k` is the path
of no entry of the source directory has no line in the file, and when the
records written are plain (paths free of white space, values below `2 ^ 64`)
loading the file gives no record for `k`. -/
theorem stale_records_dropped (a : Args) (t : Tools) (w : Files)
    (horder : ∀ m, (t.order m).Perm m) (hl : Listing w.src)
    (hok : (run a t w).exitCode = 0) (k : Str) (v : FileInfo)
    (_hrec : find (loadCache w.cache) k = some v) (hgone : ∀ e ∈ w.src, srcPath a e ≠ k) :
    ∃ recs : List (Str × FileInfo),
      (run a t w).files.cache = some (saveText recs) ∧
      recs.Perm ((sources a w).map (newRecord a t (loadCache w.cache) w.out)) ∧
      (∀ r ∈ recs, r.1 ≠ k) ∧
      ((∀ r ∈ recs, plainRecord r) →
        find (loadCache (run a t w).files.cache) k = none) := by
  obtain ⟨_, r2, _⟩ := run_ok a t w hl hok
  have hkeys : ∀ r ∈ t.order (newTable a t w), r.1 ≠ k := by
    intro r hr hk
    have hr2 := (horder _).mem_iff.1 hr
    obtain ⟨e, he, heq⟩ := List.mem_map.1 hr2
    apply hgone e (List.mem_filter.1 he).1
    rw [← hk, ← heq]
    rfl
  refine ⟨t.order (newTable a t w), r2, horder _, hkeys, ?_⟩
  intro hplain
  have hnd : ((t.order (newTable a t w)).map Prod.fst).Nodup :=
    ((horder _).map Prod.fst).nodup_iff.2 (newTable_nodup a t w hl)
  have hload : loadCache (run a t w).files.cache = t.order (newTable a t w) := by
    rw [r2]
    show loadInfo (saveText (t.order (newTable a t w))) = _
    have h1 := loadInfo_saveText (t.order (newTable a t w)) [] hplain (by decide)
    rw [List.append_nil] at h1
    rw [h1, assignAll_fresh _ [] (by simpa using hnd)]
    simp
  rw [hload, find_eq_none_iff]
  intro hm
  obtain ⟨r, hr, hrk⟩ := List.mem_map.1 hm
  exact hkeys r hr hrk

/-- Witness of the amended C8: the stale record of `src/gone.cpp`. -/
theorem stale_records_dropped_witness :
    ∃ recs : List (Str × FileInfo),
      (run sampleArgs (toolsOk 7) staleFiles).files.cache = some (saveText recs) ∧
      recs.Perm ((sources sampleArgs staleFiles).map
        (newRecord sampleArgs (toolsOk 7) (loadCache staleFiles.cache) staleFiles.out)) ∧
      (∀ r ∈ recs, r.1 ≠ "src/gone.cpp".toList) ∧
      ((∀ r ∈ recs, plainRecord r) →
        find (loadCache (run sampleArgs (toolsOk 7) staleFiles).files.cache)
          "src/gone.cpp".toList = none) :=
  stale_records_dropped sampleArgs (toolsOk 7) staleFiles (fun m => List.Perm.refl m)
    (by decide) (by decide) "src/gone.cpp".toList ⟨5, 9⟩ (by decide) (by decide)

/-- C3, as stated, fails: on `freshFiles` with an archiver that always fails,
both objects are `.o` entries of the output directory during the archive
phase, and for both the new table holds the record of the source, which the
loaded cache does not have. Yet the run returns 1 after its first call of the
archiver: traversing `a.o` first it never calls the archiver on `out/b.o`,
traversing `b.o` first it never calls it on `out/a.o`, and the object it did
pass to the archiver is not removed. -/
theorem unreached_object_not_archived :
    (compilePhase sampleArgs toolsArFail freshFiles).1.newInfo
      = [(aCpp, ⟨100, 7⟩), (bCpp, ⟨50, 7⟩)] ∧
    objFile sampleArgs aCpp = "out/a.o".toList ∧
    objFile sampleArgs bCpp = "out/b.o".toList ∧
    find (loadCache freshFiles.cache) aCpp = none ∧
    find (loadCache freshFiles.cache) bCpp = none ∧
    (run sampleArgs toolsArFail freshFiles).exitCode = 1 ∧
    (run sampleArgs toolsArFail freshFiles).calls =
      [Call.compile aCpp "out/a.o".toList "inc".toList true,
       Call.compile bCpp "out/b.o".toList "inc".toList true,
       Call.archive "out/libx.a".toList "out/a.o".toList false] ∧
    (run sampleArgs toolsArFail freshFiles).files.out
      = [("a.o".toList, 7), ("b.o".toList, 7)] ∧
    (run sampleArgs toolsArFailRev freshFiles).exitCode = 1 ∧
    (run sampleArgs toolsArFailRev freshFiles).calls =
      [Call.compile aCpp "out/a.o".toList "inc".toList true,
       Call.compile bCpp "out/b.o".toList "inc".toList true,
       Call.archive "out/libx.a".toList "out/b.o".toList false] ∧
    (run sampleArgs toolsArFailRev freshFiles).files.out
      = [("a.o".toList, 7), ("b.o".toList, 7)] := by
  decide

/-- C3, amended. Let `e` be a `.o` entry of the output directory after a
compile phase that did not fail, in an output directory with distinct file
names, and let the archive loop reach `e`: in the order in which the directory
is traversed, whatever that order is, no call of the archiver for an entry
before `e` failed. The run calls `ar r` for the path of `e` if and only if the
new table holds a record whose object path is the path of `e` and for which
the loaded cache has no record or records another marker; and `e` is removed
from the output directory if and only if that holds and the call succeeds. An
object whose source has a record with an equal marker, or that belongs to no
source of the new table, is neither archived nor removed. -/
theorem archive_decision (a : Args) (t : Tools) (w : Files) (st1 st2 : State)
    (pre post : List (Str × Nat)) (e : Str × Nat)
    (horder : ∀ m, (t.order m).Perm m) (hl : Listing w.out)
    (hcp : compilePhase a t w = (st1, true))
    (hout : t.scan st1.out = pre ++ e :: post)
    (hreach : forEach (archiveEntry a t (loadCache w.cache) st1.newInfo) pre st1 = (st2, true))
    (hobj : extension (outPath a e) = dotO) :
    ((∃ lib ok, Call.archive lib (outPath a e) ok ∈ (run a t w).calls) ↔
      ∃ ci ∈ st1.newInfo, objFile a ci.1 = outPath a e ∧
        (find (loadCache w.cache) ci.1 = none ∨
          ∃ r, find (loadCache w.cache) ci.1 = some r ∧ r.objTime ≠ ci.2.objTime)) ∧
    (marker (run a t w).files.out e.1 = none ↔
      (∃ ci ∈ st1.newInfo, objFile a ci.1 = outPath a e ∧
        (find (loadCache w.cache) ci.1 = none ∨
          ∃ r, find (loadCache w.cache) ci.1 = some r ∧ r.objTime ≠ ci.2.objTime)) ∧
      t.ar (libPath a) (outPath a e) = true) := by
  have hl1 : Listing (t.scan st1.out) := by
    have := compilePhase_listing a t w hl
    rw [hcp] at this
    exact listing_perm _ _ (t.scan_perm _) this
  rw [hout] at hl1
  obtain ⟨hev, hoth⟩ := listing_split pre post e hl1
  have hpath : ∀ x, x ∈ pre ∨ x ∈ post → outPath a x ≠ outPath a e := by
    intro x hx heq
    exact (hoth x hx).1 (pathJoin_inj a.outputDir x.1 e.1 (head_ne_sep _ (hoth x hx).2)
      (head_ne_sep _ hev) heq)
  have hiff : toArchive a t (loadCache w.cache) st1.newInfo e = true ↔
      ∃ ci ∈ st1.newInfo, objFile a ci.1 = outPath a e ∧
        (find (loadCache w.cache) ci.1 = none ∨
          ∃ r, find (loadCache w.cache) ci.1 = some r ∧ r.objTime ≠ ci.2.objTime) := by
    unfold toArchive
    rw [hobj, beq_self_eq_true, Bool.true_and, addToLib_iff]
    constructor
    · rintro ⟨ci, hci, h⟩
      exact ⟨ci, (horder _).mem_iff.1 hci, h⟩
    · rintro ⟨ci, hci, h⟩
      exact ⟨ci, (horder _).mem_iff.2 hci, h⟩
  -- the calls made before the archive loop are calls of the compiler
  obtain ⟨cs0, h0, o0⟩ := compileLoop_calls a t (loadCache w.cache) w.src (initState w)
  rw [← (compilePhase_calls a t w).1, hcp] at h0
  simp only [initState, List.nil_append] at h0
  -- the loop over the entries before `e`
  obtain ⟨cs1, h1, o1⟩ := archiveLoop_calls a t (loadCache w.cache) st1.newInfo pre st1
  rw [hreach] at h1
  simp only [] at h1
  have hm1 : marker st2.out e.1 = marker st1.out e.1 := by
    have := forEach_preserve (archiveEntry a t (loadCache w.cache) st1.newInfo)
      (fun s => marker s.out e.1) (fun x => x.1 ≠ e.1)
      (fun s x hx => archiveEntry_marker a t _ _ s x _ hx) pre st1
      (fun x hx => (hoth x (Or.inl hx)).1)
    rw [hreach] at this
    exact this
  have hm0 : marker st1.out e.1 ≠ none :=
    marker_of_mem _ e ((t.scan_perm _).mem_iff.1 (by rw [hout]; simp))
  -- the loop over the entries after `e`
  have hpost : ∀ s : State,
      (∃ cs3, (forEach (archiveEntry a t (loadCache w.cache) st1.newInfo) post s).1.calls
          = s.calls ++ cs3 ∧ ∀ c ∈ cs3, ∃ x ∈ post, ∃ ok, c = archiveCall a x ok) ∧
      marker (forEach (archiveEntry a t (loadCache w.cache) st1.newInfo) post s).1.out e.1
        = marker s.out e.1 := by
    intro s
    exact ⟨archiveLoop_calls a t (loadCache w.cache) st1.newInfo post s,
      forEach_preserve (archiveEntry a t (loadCache w.cache) st1.newInfo)
        (fun s => marker s.out e.1) (fun x => x.1 ≠ e.1)
        (fun s x hx => archiveEntry_marker a t _ _ s x _ hx) post s
        (fun x hx => (hoth x (Or.inr hx)).1)⟩
  obtain ⟨rest, hr, orest, hfo⟩ := run_calls_archive a t w st1 hcp
  unfold archiveLoop at hr hfo
  rw [hout, forEach_middle _ pre post e _ st2 hreach] at hr hfo
  have hno : ∀ (cs3 : List Call), (∀ c ∈ cs3, ∃ x ∈ post, ∃ ok, c = archiveCall a x ok) →
      ∀ lib ok, Call.archive lib (outPath a e) ok ∉ cs0 ++ cs1 ++ cs3 ++ rest := by
    intro cs3 o3 lib ok hmem
    rcases List.mem_append.1 hmem with hmem | hmem
    · rcases List.mem_append.1 hmem with hmem | hmem
      · rcases List.mem_append.1 hmem with hmem | hmem
        · obtain ⟨x, _, ok2, heq⟩ := o0 _ hmem
          simp [compileCall] at heq
        · obtain ⟨x, hx, ok2, heq⟩ := o1 _ hmem
          simp only [archiveCall, Call.archive.injEq] at heq
          exact hpath x (Or.inl hx) heq.2.1.symm
      · obtain ⟨x, hx, ok2, heq⟩ := o3 _ hmem
        simp only [archiveCall, Call.archive.injEq] at heq
        exact hpath x (Or.inr hx) heq.2.1.symm
    · have := orest _ hmem
      simp [Call.isArchive] at this
  rcases archiveEntry_cases a t (loadCache w.cache) st1.newInfo st2 e with
    ⟨hc, h2⟩ | ⟨hc, har, h2⟩ | ⟨hc, har, h2⟩
  · have hta : ¬ toArchive a t (loadCache w.cache) st1.newInfo e = true := by
      intro h; rw [toArchive, hc] at h; cases h
    obtain ⟨⟨cs3, h3, o3⟩, hm3⟩ := hpost st2
    rw [h2] at hr hfo
    simp only [if_true] at hr hfo
    rw [h3, h1, h0] at hr
    constructor
    · constructor
      · rintro ⟨lib, ok, hmem⟩
        rw [hr] at hmem
        exact absurd hmem (hno cs3 o3 lib ok)
      · intro hcond
        exact absurd (hiff.2 hcond) hta
    · rw [hfo, hm3, hm1]
      constructor
      · intro h; exact absurd h hm0
      · intro h; exact absurd (hiff.2 h.1) hta
  · have hta : toArchive a t (loadCache w.cache) st1.newInfo e = true := hc
    rw [h2] at hr hfo
    simp only [if_true] at hr hfo
    obtain ⟨⟨cs3, h3, _⟩, hm3⟩ := hpost
      { st2 with
        out := removeFile st2.out e.1
        lib := some (addMember st2.lib (outPath a e))
        calls := st2.calls ++ [archiveCall a e true]
        libUpdated := true }
    constructor
    · constructor
      · intro _; exact hiff.1 hta
      · intro _
        refine ⟨libPath a, true, ?_⟩
        rw [hr, h3]
        simp [archiveCall]
    · rw [hfo, hm3]
      simp only []
      rw [marker_removeFile, if_pos rfl]
      constructor
      · intro _; exact ⟨hiff.1 hta, har⟩
      · intro _; rfl
  · have hta : toArchive a t (loadCache w.cache) st1.newInfo e = true := hc
    rw [h2] at hr hfo
    simp only [Bool.false_eq_true, if_false] at hr hfo
    constructor
    · constructor
      · intro _; exact hiff.1 hta
      · intro _
        refine ⟨libPath a, false, ?_⟩
        rw [hr]
        simp [archiveCall]
    · rw [hfo]
      show marker st2.out e.1 = none ↔ _
      rw [hm1]
      constructor
      · intro h; exact absurd h hm0
      · intro h
        rw [har] at h
        cases h.2

/-- Witness of the amended C3: the object `a.o` in the first run on
`freshFiles` with the output directory traversed in the opposite order,
reached after `b.o` was archived. -/
theorem archive_decision_witness :
    ((∃ lib ok, Call.archive lib (outPath sampleArgs ("a.o".toList, 7)) ok
        ∈ (run sampleArgs toolsOkRev freshFiles).calls) ↔
      ∃ ci ∈ (compilePhase sampleArgs toolsOkRev freshFiles).1.newInfo,
        objFile sampleArgs ci.1 = outPath sampleArgs ("a.o".toList, 7) ∧
        (find (loadCache freshFiles.cache) ci.1 = none ∨
          ∃ r, find (loadCache freshFiles.cache) ci.1 = some r ∧
            r.objTime ≠ ci.2.objTime)) ∧
    (marker (run sampleArgs toolsOkRev freshFiles).files.out "a.o".toList = none ↔
      (∃ ci ∈ (compilePhase sampleArgs toolsOkRev freshFiles).1.newInfo,
        objFile sampleArgs ci.1 = outPath sampleArgs ("a.o".toList, 7) ∧
        (find (loadCache freshFiles.cache) ci.1 = none ∨
          ∃ r, find (loadCache freshFiles.cache) ci.1 = some r ∧
            r.objTime ≠ ci.2.objTime)) ∧
      toolsOkRev.ar (libPath sampleArgs) (outPath sampleArgs ("a.o".toList, 7)) = true) :=
  archive_decision sampleArgs toolsOkRev freshFiles
    (compilePhase sampleArgs toolsOkRev freshFiles).1
    (forEach (archiveEntry sampleArgs toolsOkRev (loadCache freshFiles.cache)
      (compilePhase sampleArgs toolsOkRev freshFiles).1.newInfo) [("b.o".toList, 7)]
      (compilePhase sampleArgs toolsOkRev freshFiles).1).1
    [("b.o".toList, 7)] [] ("a.o".toList, 7)
    (fun m => List.Perm.refl m) (by decide) (by decide) (by decide) (by decide) (by decide)

end Clib
